import Mathlib

/-!
Verification development for the BPE tokeniser repository.

Strings are modelled by Lean `String` (a list of characters); each character
stands for one byte of the C++ `std::string` (the code only ever inspects the
ASCII subset, and the claims are about ASCII data).  `std::map` and the
inverted-index map are modelled as association lists kept sorted by key, so
that iteration order (which the code relies on, e.g. in `std::max_element`
tie-breaking) is represented faithfully.  `std::set<std::string>` is modelled
as a sorted duplicate-free list.  C++ `int` values are modelled as `Int`.
-/

/-- Character class used by `std::isalpha` under the default "C" locale:
ASCII letters only (byte values 97-122 and 65-90). -/
def isAlphaAscii (c : Char) : Bool :=
  (97 ≤ c.toNat && c.toNat ≤ 122) || (65 ≤ c.toNat && c.toNat ≤ 90)

/-- Character class of `std::islower` under the default "C" locale. -/
def isLowerAscii (c : Char) : Bool :=
  97 ≤ c.toNat && c.toNat ≤ 122

/-- Character class of `std::isupper` under the default "C" locale. -/
def isUpperAscii (c : Char) : Bool :=
  65 ≤ c.toNat && c.toNat ≤ 90

/-- Character class of `std::isspace` under the default "C" locale. -/
def isSpaceAscii (c : Char) : Bool :=
  c = ' ' || c = '\t' || c = '\n' || c = '\x0b' || c = '\x0c' || c = '\r'

/-- Model of `::tolower` in the "C" locale restricted to ASCII. -/
def lowerChar (c : Char) : Char :=
  if isUpperAscii c then Char.ofNat (c.toNat + 32) else c

/-- Lowercasing a whole string, as done by `std::transform(..., ::tolower)`. -/
def lowerStr (s : String) : String :=
  String.mk (s.data.map lowerChar)

/-- The end-of-word marker appended to every BPE word (`"</w>"` in the code). -/
def EOW : String := "</w>"

/-- A pair of adjacent symbols, `std::pair<std::string, std::string>`. -/
abbrev SPair := String × String

/-- Byte-wise lexicographic strict comparison of character lists; this is
`std::string::operator<` for the byte strings the code manipulates. -/
def charsLt : List Char → List Char → Bool
  | [], [] => false
  | [], _ :: _ => true
  | _ :: _, [] => false
  | a :: s, b :: t => if a = b then charsLt s t else decide (a < b)

/-- `std::string` comparison. -/
def strLt (a b : String) : Bool :=
  charsLt a.data b.data

/-- `std::pair` lexicographic comparison, as used for `std::map` over pairs. -/
def pairLt (p q : SPair) : Bool :=
  if p.1 = q.1 then strLt p.2 q.2 else strLt p.1 q.1

/-- Lookup in an association list: `std::map::find`. -/
def alFind {β : Type} (m : List (String × β)) (k : String) : Option β :=
  match m with
  | [] => none
  | (k', v) :: rest => if k' = k then some v else alFind rest k

/-- Store a value in an association list sorted by `strLt`, replacing the
existing entry if the key is present: `std::map::operator[]` assignment. -/
def alSet {β : Type} (m : List (String × β)) (k : String) (v : β) : List (String × β) :=
  match m with
  | [] => [(k, v)]
  | (k', v') :: rest =>
    if k' = k then (k, v) :: rest
    else if strLt k k' then (k, v) :: (k', v') :: rest
    else (k', v') :: alSet rest k v

/-- Remove all entries with the given key: `std::map::erase` (association
lists built by `alSet` never hold a key twice). -/
def alErase {β : Type} (m : List (String × β)) (k : String) : List (String × β) :=
  m.filter (fun e => decide (e.1 ≠ k))

/-- Lookup in a pair-keyed association list. -/
def plFind {β : Type} (m : List (SPair × β)) (k : SPair) : Option β :=
  match m with
  | [] => none
  | (k', v) :: rest => if k' = k then some v else plFind rest k

/-- Store a value in a pair-keyed association list sorted by `pairLt`. -/
def plSet {β : Type} (m : List (SPair × β)) (k : SPair) (v : β) : List (SPair × β) :=
  match m with
  | [] => [(k, v)]
  | (k', v') :: rest =>
    if k' = k then (k, v) :: rest
    else if pairLt k k' then (k, v) :: (k', v') :: rest
    else (k', v') :: plSet rest k v

/-- Remove all entries with the given pair key: `std::map::erase`. -/
def plErase {β : Type} (m : List (SPair × β)) (k : SPair) : List (SPair × β) :=
  m.filter (fun e => decide (e.1 ≠ k))

/-- Insert a string into a sorted duplicate-free list: `std::set::insert`. -/
def setIns (l : List String) (s : String) : List String :=
  match l with
  | [] => [s]
  | x :: rest =>
    if x = s then x :: rest
    else if strLt s x then s :: x :: rest
    else x :: setIns rest s

/-! ## Pre-splitter (`pre_split_word`, src/src/token/split.cpp lines 30-62) -/

/-- The split test of `pre_split_word` at position `i` of word `w` (`1 ≤ i`):
condition 1 is lower-to-upper, condition 2 is the acronym-to-word transition
(an upper at `i-1`, an upper at `i`, and a lower at `i+1`, which must exist). -/
def splitCondAt (w : List Char) (i : Nat) : Bool :=
  (isLowerAscii (w.getD (i - 1) ' ') && isUpperAscii (w.getD i ' '))
    || (decide (i + 1 < w.length) && isUpperAscii (w.getD (i - 1) ' ')
          && isUpperAscii (w.getD i ' ') && isLowerAscii (w.getD (i + 1) ' '))

/-- The scanning loop of `pre_split_word`: `start` is the beginning of the
current sub-word, `i` the scan position, and `fuel` the number of remaining
iterations (`w.length - i` at the call site; the loop body runs once per
`i < w.length`). -/
def preSplitGo (w : List Char) (start i : Nat) : Nat → List (List Char)
  | 0 => [w.drop start]
  | fuel + 1 =>
    if splitCondAt w i then ((w.drop start).take (i - start)) :: preSplitGo w i (i + 1) fuel
    else preSplitGo w start (i + 1) fuel

/-- Model of `pre_split_word`: split a raw word at case transitions.  The empty
word yields the empty list; otherwise the scan starts at `i = 1`. -/
def pre_split_word (w : String) : List String :=
  if w.data.isEmpty then []
  else (preSplitGo w.data 0 1 (w.data.length - 1)).map String.mk

/-- The positions at which the pre-splitter's conditions fire (spec-side
description: all `i` with `1 ≤ i < |w|` satisfying the split test). -/
def cutPoints (w : List Char) : List Nat :=
  (List.range' 1 (w.length - 1)).filter (splitCondAt w)

/-- Spec-side chopper: cut a word at an ascending list of absolute positions,
`start` being the start of the current segment. -/
def chopAt (w : List Char) (start : Nat) : List Nat → List (List Char)
  | [] => [w.drop start]
  | c :: cs => ((w.drop start).take (c - start)) :: chopAt w c cs

/-! ## Thread-safe queue (`ThreadSafeQueue`, src/include/tokenise.hpp 156-200) -/

/-- The mutable state of a `ThreadSafeQueue`: the queued items (front first)
and the `done_` flag set by `close()`. -/
structure TSQueue (T : Type) where
  items : List T
  done : Bool

/-- Model of `ThreadSafeQueue::wait_and_pop` at the moment the condition
variable wait returns, i.e. on a state satisfying `¬items.isEmpty ∨ done`
(blocking itself is outside the embedding).  Result: the returned `bool`, the
item written through the reference (if any), and the new queue state. -/
def wait_and_pop {T : Type} (q : TSQueue T) : Bool × Option T × TSQueue T :=
  if q.items.isEmpty && q.done then (false, none, q)
  else
    match q.items with
    | x :: rest => (true, some x, ⟨rest, q.done⟩)
    | [] => (true, none, q)

/-! ## Greedy segmenter (`splitWord` / `splitSentence`, src/split.cpp 337-398) -/

/-- Byte-prefix test, `cur.rfind(token, 0) == 0` in the code. -/
def isPfx : List Char → List Char → Bool
  | [], _ => true
  | _ :: _, [] => false
  | a :: s, b :: t => a = b && isPfx s t

/-- One `while` loop of `splitWord`, with explicit fuel (each iteration
consumes at least one byte of `cur`, so `cur.length` bounds the iterations).
`none` models non-termination: it arises only when the fuel is insufficient
or when the first matching vocabulary token is the empty string, in which
case the C++ loop never advances `cur`. -/
def splitWordGo (tokens : List String) : Nat → List Char → Option (List String)
  | 0, _ => none
  | _ + 1, [] => some []
  | fuel + 1, c :: cur =>
    match tokens.find? (fun t => isPfx t.data (c :: cur)) with
    | some t =>
      if t.data.isEmpty then none
      else (splitWordGo tokens fuel ((c :: cur).drop t.data.length)).map (fun out => t :: out)
    | none => (splitWordGo tokens fuel cur).map (fun out => String.singleton c :: out)

/-- Model of `tokeniser::splitWord`: greedy first-prefix segmentation of a
single word against the vocabulary list `tokens`. -/
def splitWord (tokens : List String) (word : String) : Option (List String) :=
  if word.isEmpty then some []
  else splitWordGo tokens ((word ++ EOW).data.length + 1) (word ++ EOW).data

/-- The sentence scanner of `splitSentence`: the regex
`[a-zA-Z]+|[^a-zA-Z\s]` emits maximal letter runs and single non-letter,
non-space characters, in input order; `acc` holds the letter run currently
being read (in reverse). -/
def sentScan : List Char → Option (List Char) → List String
  | [], none => []
  | [], some run => [String.mk run.reverse]
  | c :: rest, acc =>
    if isAlphaAscii c then sentScan rest (some (c :: acc.getD []))
    else
      match acc with
      | some run =>
        String.mk run.reverse ::
          (if isSpaceAscii c then sentScan rest none
           else String.singleton c :: sentScan rest none)
      | none =>
        if isSpaceAscii c then sentScan rest none
        else String.singleton c :: sentScan rest none

/-- The tokens of a sentence in input order. -/
def sentTokens (s : String) : List String :=
  sentScan s.data none

/-- Model of `tokeniser::splitSentence`: letter runs are lowercased and
segmented through `splitWord`; other characters pass through verbatim. -/
def splitSentence (tokens : List String) (s : String) : Option (List String) :=
  (sentTokens s).foldr
    (fun tok acc => do
      let rest ← acc
      if isAlphaAscii (tok.data.headD ' ') then
        let ws ← splitWord tokens (lowerStr tok)
        pure (ws ++ rest)
      else pure (tok :: rest))
    (some [])

/-! ## BPE learner (`groupCommonTokensParallel`, src/group.cpp 254-429) -/

/-- `is_word_for_bpe` from group.cpp line 265: non-empty, starts with a
letter, and longer than one character. -/
def isWordForBpe (s : String) : Bool :=
  match s.data with
  | [] => false
  | c :: cs => isAlphaAscii c && !cs.isEmpty

/-- Initial character-level split of a BPE word: its characters followed by
the end-of-word token (group.cpp 295-304). -/
def initSplit (w : String) : List String :=
  w.data.map String.singleton ++ [EOW]

/-- The list of adjacent pairs of a symbol sequence. -/
def pairsOf (l : List String) : List SPair :=
  l.zip l.tail

/-- Number of occurrences of a pair in a list of pairs. -/
def cntP (p : SPair) (l : List SPair) : Nat :=
  l.countP (fun q => decide (q = p))

/-- `pair_stats[p] += d` on the modelled `std::map` (`operator[]` creates a
zero entry when absent). -/
def psBump (P : List (SPair × Int)) (p : SPair) (d : Int) : List (SPair × Int) :=
  plSet P p (((plFind P p).getD 0) + d)

/-- `pair_stats[p] -= f; if (pair_stats[p] <= 0) pair_stats.erase(p);`. -/
def psDec (P : List (SPair × Int)) (p : SPair) (f : Int) : List (SPair × Int) :=
  let P' := psBump P p (-f)
  if ((plFind P' p).getD 0) ≤ 0 then plErase P' p else P'

/-- `inverted_index[p].push_back(w)` (`operator[]` creates an empty vector
when the key is absent). -/
def iiPush (I : List (SPair × List String)) (p : SPair) (w : String) :
    List (SPair × List String) :=
  plSet I p (((plFind I p).getD []) ++ [w])

/-- The pure rebuild of one word's symbol list when merging the pair `(a, b)`
into `t`: the left-to-right non-overlapping scan shared by `merge_pair`
(src/split.cpp 47-67) and the inner loop of the incremental learner
(src/group.cpp 363-400). -/
def mergeList (a b t : String) : List String → List String
  | x :: y :: rest =>
    if x = a && y = b then t :: mergeList a b t rest
    else x :: mergeList a b t (y :: rest)
  | l => l

/-- Model of the free function `merge_pair` (src/split.cpp 47-67): rebuild
every split in the map. -/
def merge_pair (bp : SPair) (splits : List (String × List String)) :
    List (String × List String) :=
  splits.map (fun e => (e.1, mergeList bp.1 bp.2 (bp.1 ++ bp.2) e.2))

/-- The pair-statistics updates performed while one word's symbol list is
rebuilt, in execution order.  `prev` is the symbol preceding the scan position
in the *old* list (`symbols[k-1]` in the code), `false` marks a decrement of
`f` with erase-if-nonpositive, `true` an increment of `f` (the increments are
also pushed to the inverted index). -/
def mergeEvents (a b t : String) : Option String → List String → List (Bool × SPair)
  | prev, x :: y :: rest =>
    if x = a && y = b then
      (match prev with
       | some pv => [(false, (pv, a)), (true, (pv, t))]
       | none => []) ++
      (match rest with
       | z :: _ => [(false, (b, z)), (true, (t, z))]
       | [] => []) ++
      mergeEvents a b t (some b) rest
    else mergeEvents a b t (some x) (y :: rest)
  | _, _ => []

/-- Apply one statistics update to the pair-stats map. -/
def applyEvent (f : Int) (P : List (SPair × Int)) (e : Bool × SPair) :
    List (SPair × Int) :=
  if e.1 then psBump P e.2 f else psDec P e.2 f

/-- Apply a list of statistics updates in order. -/
def applyEvents (f : Int) (P : List (SPair × Int)) (evs : List (Bool × SPair)) :
    List (SPair × Int) :=
  evs.foldl (applyEvent f) P

/-- The inner rebuild loop of the incremental learner (group.cpp 363-400),
walking the old symbol list while updating `pair_stats` and the inverted
index.  `prev` is the old symbol at position `k-1` (`none` at `k = 0`). -/
def mergeWalk (a b t : String) (w : String) (f : Int) :
    Option String → List String → List (SPair × Int) → List (SPair × List String) →
    List String × List (SPair × Int) × List (SPair × List String)
  | _, [], P, I => ([], P, I)
  | _, [x], P, I => ([x], P, I)
  | prev, x :: y :: rest, P, I =>
    if x = a && y = b then
      let PI1 : List (SPair × Int) × List (SPair × List String) :=
        match prev with
        | some pv => (psBump (psDec P (pv, a) f) (pv, t) f, iiPush I (pv, t) w)
        | none => (P, I)
      let PI2 : List (SPair × Int) × List (SPair × List String) :=
        match rest with
        | z :: _ => (psBump (psDec PI1.1 (b, z) f) (t, z) f, iiPush PI1.2 (t, z) w)
        | [] => PI1
      let r := mergeWalk a b t w f (some b) rest PI2.1 PI2.2
      (t :: r.1, r.2.1, r.2.2)
    else
      let r := mergeWalk a b t w f (some x) (y :: rest) P I
      (x :: r.1, r.2.1, r.2.2)

/-- The training state of the incremental learner: `counts` is
`bpe_word_counts`, `splits`, `pstats` and `iindex` are the three maps, and
`vocab` the `std::set` of vocabulary symbols. -/
structure TrainSt where
  counts : List (String × Int)
  splits : List (String × List String)
  pstats : List (SPair × Int)
  iindex : List (SPair × List String)
  vocab : List String

/-- Processing of one affected word inside the merge loop (group.cpp
355-402): look up its split and frequency, skip splits shorter than two
symbols, otherwise rebuild via `mergeWalk` and store the new split.  The
`.at` lookups are modelled by `getD` defaults; a word absent from `splits`
falls into the skip branch. -/
def processWord (counts : List (String × Int)) (bp : SPair) (t : String)
    (acc : List (String × List String) × List (SPair × Int) × List (SPair × List String))
    (w : String) :
    List (String × List String) × List (SPair × Int) × List (SPair × List String) :=
  let syms := (alFind acc.1 w).getD []
  let f := (alFind counts w).getD 0
  if syms.length < 2 then acc
  else
    let r := mergeWalk bp.1 bp.2 t w f none syms acc.2.1 acc.2.2
    (alSet acc.1 w r.1, r.2.1, r.2.2)

/-- One body of the merge loop after the best pair has been selected
(group.cpp 340-406): record the new token, handle the missing-index guard,
rebuild all affected words, and erase the merged pair from both maps. -/
def mergeStep (bp : SPair) (st : TrainSt) : TrainSt :=
  let t := bp.1 ++ bp.2
  let vocab := setIns st.vocab t
  match plFind st.iindex bp with
  | none => { st with vocab := vocab, pstats := plErase st.pstats bp }
  | some ws =>
    let r := ws.foldl (processWord st.counts bp t) (st.splits, st.pstats, st.iindex)
    { counts := st.counts, splits := r.1, pstats := plErase r.2.1 bp,
      iindex := plErase r.2.2 bp, vocab := vocab }

/-- `std::max_element` over the pair-stats map with comparator
`a.second < b.second`: the first entry (in key order) with the maximal value;
`none` iff the map is empty. -/
def selectBest (P : List (SPair × Int)) : Option (SPair × Int) :=
  P.foldl
    (fun best e =>
      match best with
      | none => some e
      | some bst => if bst.2 < e.2 then some e else some bst)
    none

/-- One iteration of the merge loop (group.cpp 331-414): stop when
`pair_stats` is empty, otherwise merge the selected best pair. -/
def trainStep (st : TrainSt) : TrainSt :=
  match selectBest st.pstats with
  | none => st
  | some be => mergeStep be.1 st

/-- The merge loop run for at most `n` iterations. -/
def bpeLoop : Nat → TrainSt → TrainSt
  | 0, st => st
  | n + 1, st =>
    match selectBest st.pstats with
    | none => st
    | some be => bpeLoop n (mergeStep be.1 st)

/-- Initial pair statistics and inverted index built once from the splits
(group.cpp 315-324): for each stored split of length at least two, every
adjacent pair is credited with the word's frequency and the word is appended
to the pair's index entry. -/
def buildPI (counts : List (String × Int)) (splits : List (String × List String)) :
    List (SPair × Int) × List (SPair × List String) :=
  splits.foldl
    (fun PI e =>
      if e.2.length < 2 then PI
      else
        (pairsOf e.2).foldl
          (fun PI pr =>
            (psBump PI.1 pr ((alFind counts e.1).getD 0), iiPush PI.2 pr e.1))
          PI)
    ([], [])

/-- Classification step of the setup loop (group.cpp 273-280): a word
eligible for BPE goes into `bpe_word_counts`, anything else into the
vocabulary of atomic tokens. -/
def clsStep (acc : List (String × Int) × List String) (e : String × Int) :
    List (String × Int) × List String :=
  if isWordForBpe e.1 then (alSet acc.1 e.1 e.2, acc.2)
  else (acc.1, setIns acc.2 e.1)

/-- Split-building step of the setup loop (group.cpp 295-305): store the
character-level split of the word and add every single character to the
vocabulary. -/
def svStep (acc : List (String × List String) × List String) (e : String × Int) :
    List (String × List String) × List String :=
  (alSet acc.1 e.1 (initSplit e.1),
   e.1.data.foldl (fun v c => setIns v (String.singleton c)) acc.2)

/-- Setup phase of `groupCommonTokensParallel` (group.cpp 257-324): classify
the raw word counts into atomic tokens and BPE words, build the initial
splits and base vocabulary, and (when BPE words exist) the initial statistics
and inverted index.  When no word qualifies for BPE, the function returns
early with only the atomic vocabulary (the maps stay empty). -/
def setupSt (wc : List (String × Int)) : TrainSt :=
  let cls := wc.foldl clsStep ([], [])
  let bpeCounts := cls.1
  if bpeCounts.isEmpty then
    { counts := [], splits := [], pstats := [], iindex := [], vocab := cls.2 }
  else
    let sv := bpeCounts.foldl svStep ([], cls.2)
    let vocab := setIns sv.2 EOW
    let PI := buildPI bpeCounts sv.1
    { counts := bpeCounts, splits := sv.1, pstats := PI.1, iindex := PI.2,
      vocab := vocab }

/-- Model of the free function `get_pair_stats` (src/split.cpp 24-37), the
full statistics recompute: iterate the word counts and credit every adjacent
pair of the word's current split with the word's frequency. -/
def get_pair_stats (word_counts : List (String × Int))
    (splits : List (String × List String)) : List (SPair × Int) :=
  word_counts.foldl
    (fun P e => (pairsOf ((alFind splits e.1).getD [])).foldl (fun P pr => psBump P pr e.2) P)
    []

/-- The mathematical pair frequency: the sum over all words of the word's
frequency times the number of adjacent occurrences of the pair in the word's
current split. -/
def totalPairs (counts : List (String × Int)) (splits : List (String × List String))
    (p : SPair) : Int :=
  (counts.map (fun e => e.2 * (cntP p (pairsOf ((alFind splits e.1).getD [])) : Int))).sum

/-- A nonnegative total viewed as a `std::map` entry: absent when zero. -/
def toOptZ (x : Int) : Option Int :=
  if x ≤ 0 then none else some x

/-- Occurrence of the contiguous pattern `a b a b` (two immediately adjacent
occurrences of the pair `(a, b)`) in a symbol list. -/
def hasABAB (a b : String) : List String → Bool
  | x :: y :: z :: u :: rest =>
    (x = a && y = b && z = a && u = b) || hasABAB a b (y :: z :: u :: rest)
  | _ => false

/-- Insertion into a list sorted by the boolean relation `le`. -/
def insSorted (le : String → String → Bool) (x : String) : List String → List String
  | [] => [x]
  | y :: ys => if le x y then x :: y :: ys else y :: insSorted le x ys

/-- Insertion sort by the boolean relation `le`; this models `std::sort`
(which promises only an ordering consistent with the comparator). -/
def sortBy (le : String → String → Bool) (l : List String) : List String :=
  l.foldr (insSorted le) []

/-- The comparator-as-ordering of the finalization sort (group.cpp 421-423):
`a` may precede `b` iff `a.length() > b.length()` fails to put `b` first. -/
def lenDescLe (a b : String) : Bool :=
  decide (b.length ≤ a.length)

/-- Vocabulary finalization (group.cpp 419-423): sort by descending length. -/
def finalizeVocab (v : List String) : List String :=
  sortBy lenDescLe v

/-- The comparator-as-ordering of the reload sort (src/readFiles.cpp
578-586): descending length, ties by lexicographic byte order. -/
def reloadLe (a b : String) : Bool :=
  decide (b.length < a.length) || (decide (a.length = b.length) && !strLt b a)

/-- The token sort performed by `readFromFiles` after reloading artifacts. -/
def reloadSortTokens (v : List String) : List String :=
  sortBy reloadLe v

/-- Full model of `groupCommonTokensParallel` (group.cpp 254-429): setup,
merge loop, and finalization sort.  In the early-return case (no BPE words)
the vocabulary is returned unsorted, exactly as in the code. -/
def groupCommonTokensParallel (wc : List (String × Int)) (num_merges : Nat) :
    List String :=
  let st := setupSt wc
  if st.counts.isEmpty then st.vocab
  else finalizeVocab (bpeLoop num_merges st).vocab

/-- Concatenation of a list of symbols, front to back. -/
def concatSyms (l : List String) : String :=
  l.foldr (fun a r => a ++ r) ""

/-- The states visited by a run of the incremental learner on the word counts
`wc`: the state right after setup, and the state after each complete merge
step of the loop. -/
inductive ReachSt (wc : List (String × Int)) : TrainSt → Prop
  | init : ReachSt wc (setupSt wc)
  | step (st : TrainSt) : ReachSt wc st → ReachSt wc (trainStep st)

/-- The split-map concatenation property for a word-count map. -/
def SplitsOk (counts : List (String × Int)) (splits : List (String × List String)) : Prop :=
  ∀ w n, (w, n) ∈ counts → ∃ l, alFind splits w = some l ∧ concatSyms l = w ++ EOW

/-- A possible previous symbol consed onto a list (`symbols[k-1]` context). -/
def optCons (prev : Option String) (l : List String) : List String :=
  match prev with
  | some pv => pv :: l
  | none => l

/-- Net effect of a list of statistics updates on the entry of one pair, in
units of the word frequency: increments count `+1`, decrements `-1`. -/
def evDelta (p : SPair) (evs : List (Bool × SPair)) : Int :=
  (evs.map (fun e => if e.2 = p then (if e.1 then (1 : Int) else -1) else 0)).sum

/-- Number of decrement updates touching one pair. -/
def decCount (p : SPair) (evs : List (Bool × SPair)) : Nat :=
  evs.countP (fun e => !e.1 && decide (e.2 = p))

/-- Boundary indicator for the decrement bound: `1` exactly when the word tail
starts with the merged pair and the decremented pair is the boundary pair
formed with the previous symbol. -/
def bnd (a b : String) (p : SPair) (prev : Option String) (l : List String) : Int :=
  match prev, l with
  | some pv, x :: y :: _ => if x = a ∧ y = b ∧ p = (pv, a) then 1 else 0
  | _, _ => 0

/-! ## Helper lemmas -/

theorem strExt {s t : String} (h : s.data = t.data) : s = t := by
  cases s; cases t; simp_all

theorem strMkData (s : String) : String.mk s.data = s := by
  cases s; rfl

theorem concatSyms_cons (a : String) (l : List String) :
    concatSyms (a :: l) = a ++ concatSyms l := rfl

theorem str_append_assoc (a b c : String) : a ++ b ++ c = a ++ (b ++ c) := by
  apply strExt; simp [String.data_append, List.append_assoc]

theorem concatSyms_singletons (cs : List Char) :
    concatSyms (cs.map String.singleton) = String.mk cs := by
  induction cs with
  | nil => rfl
  | cons c cs ih =>
    simp only [List.map_cons, concatSyms_cons, ih]
    apply strExt
    simp [String.data_append, String.singleton]

theorem alFind_alSet {β : Type} (m : List (String × β)) (k q : String) (v : β) :
    alFind (alSet m k v) q = if k = q then some v else alFind m q := by
  induction m with
  | nil => by_cases h : k = q <;> simp [alSet, alFind, h]
  | cons e rest ih =>
    obtain ⟨k', v'⟩ := e
    by_cases h1 : k' = k
    · subst h1
      by_cases h2 : k' = q <;> simp [alSet, alFind, h2]
    · simp only [alSet, if_neg h1]
      by_cases h3 : strLt k k'
      · by_cases h2 : k = q
        · subst h2; simp [alFind, h3, Ne.symm h1]
        · by_cases h4 : k' = q
          · subst h4; simp [alFind, h3, h2, Ne.symm h1]
          · simp [alFind, h2, h3, h4]
      · by_cases h4 : k' = q
        · subst h4
          simp [alFind, h3, h1, Ne.symm h1]
        · simp [alFind, h3, h4, ih]

theorem plFind_plSet {β : Type} (m : List (SPair × β)) (k q : SPair) (v : β) :
    plFind (plSet m k v) q = if k = q then some v else plFind m q := by
  induction m with
  | nil => by_cases h : k = q <;> simp [plSet, plFind, h]
  | cons e rest ih =>
    obtain ⟨k', v'⟩ := e
    by_cases h1 : k' = k
    · subst h1
      by_cases h2 : k' = q <;> simp [plSet, plFind, h2]
    · simp only [plSet, if_neg h1]
      by_cases h3 : pairLt k k'
      · by_cases h2 : k = q
        · subst h2; simp [plFind, h3, Ne.symm h1]
        · by_cases h4 : k' = q
          · subst h4; simp [plFind, h3, h2, Ne.symm h1]
          · simp [plFind, h2, h3, h4]
      · by_cases h4 : k' = q
        · subst h4
          simp [plFind, h3, h1, Ne.symm h1]
        · simp [plFind, h3, h4, ih]

theorem plErase_cons {β : Type} (k' : SPair) (v' : β) (rest : List (SPair × β)) (k : SPair) :
    plErase ((k', v') :: rest) k =
      if k' = k then plErase rest k else (k', v') :: plErase rest k := by
  by_cases h : k' = k <;> simp [plErase, List.filter_cons, h]

theorem plFind_plErase {β : Type} (m : List (SPair × β)) (k q : SPair) :
    plFind (plErase m k) q = if k = q then none else plFind m q := by
  induction m with
  | nil => by_cases h : k = q <;> simp [plErase, plFind, h]
  | cons e rest ih =>
    obtain ⟨k', v'⟩ := e
    rw [plErase_cons]
    by_cases h1 : k' = k
    · subst h1
      rw [if_pos rfl, ih]
      by_cases h2 : k' = q
      · subst h2; simp
      · simp [plFind, h2]
    · rw [if_neg h1]
      by_cases h2 : k' = q
      · subst h2
        have hkq : ¬ k = k' := fun h => h1 h.symm
        simp [plFind, hkq]
      · simp [plFind, h2, ih]

theorem alFind_some_mem {β : Type} {m : List (String × β)} {k : String} {v : β}
    (h : alFind m k = some v) : (k, v) ∈ m := by
  induction m with
  | nil => simp [alFind] at h
  | cons e rest ih =>
    obtain ⟨k', v'⟩ := e
    by_cases h1 : k' = k
    · subst h1
      simp [alFind] at h
      simp [h]
    · simp [alFind, h1] at h
      exact List.mem_cons_of_mem _ (ih h)

theorem mem_setIns (l : List String) (s x : String) :
    x ∈ setIns l s ↔ x = s ∨ x ∈ l := by
  induction l with
  | nil => simp [setIns]
  | cons y rest ih =>
    by_cases h1 : y = s
    · subst h1
      have hy : setIns (y :: rest) y = y :: rest := by
        show (if y = y then y :: rest else _) = y :: rest
        rw [if_pos rfl]
      rw [hy]
      simp only [List.mem_cons]
      tauto
    · by_cases h2 : strLt s y <;> simp [setIns, h1, h2, ih] <;> tauto

theorem charsLt_irrefl (s : List Char) : charsLt s s = false := by
  induction s with
  | nil => rfl
  | cons a s ih => simp [charsLt, ih]

theorem charsLt_asymm {s t : List Char} (h : charsLt s t = true) : charsLt t s = false := by
  induction s generalizing t with
  | nil =>
    cases t with
    | nil => simpa [charsLt] using h
    | cons b t => simp [charsLt]
  | cons a s ih =>
    cases t with
    | nil => simp [charsLt] at h
    | cons b t =>
      by_cases hab : a = b
      · subst hab
        simp only [charsLt, if_pos rfl] at h ⊢
        exact ih h
      · simp only [charsLt, if_neg hab, decide_eq_true_eq] at h
        have hba : ¬ b = a := fun hh => hab hh.symm
        simp only [charsLt, if_neg hba, decide_eq_false_iff_not]
        exact not_lt_of_gt h

theorem charsLt_connex {s t : List Char} (h1 : charsLt s t = false)
    (h2 : charsLt t s = false) : s = t := by
  induction s generalizing t with
  | nil =>
    cases t with
    | nil => rfl
    | cons b t => simp [charsLt] at h1
  | cons a s ih =>
    cases t with
    | nil => simp [charsLt] at h2
    | cons b t =>
      by_cases hab : a = b
      · subst hab
        simp only [charsLt, if_pos rfl] at h1 h2
        rw [ih h1 h2]
      · have hba : ¬ b = a := fun hh => hab hh.symm
        simp only [charsLt, if_neg hab, if_neg hba, decide_eq_false_iff_not] at h1 h2
        rcases lt_or_gt_of_ne (show a ≠ b from fun hh => hab hh) with hlt | hgt
        · exact absurd hlt h1
        · exact absurd hgt h2

theorem charsLt_trans {s t u : List Char} (h1 : charsLt s t = true)
    (h2 : charsLt t u = true) : charsLt s u = true := by
  induction s generalizing t u with
  | nil =>
    cases u with
    | nil => cases t <;> simp [charsLt] at h1 h2
    | cons c u => simp [charsLt]
  | cons a s ih =>
    cases t with
    | nil => simp [charsLt] at h1
    | cons b t =>
      cases u with
      | nil => simp [charsLt] at h2
      | cons c u =>
        by_cases hab : a = b <;> by_cases hbc : b = c
        · subst hab; subst hbc
          simp only [charsLt, if_pos rfl] at h1 h2 ⊢
          exact ih h1 h2
        · subst hab
          simp only [charsLt, if_pos rfl, if_neg hbc] at h1 h2 ⊢
          exact h2
        · subst hbc
          simp only [charsLt, if_pos rfl, if_neg hab] at h1 h2 ⊢
          exact h1
        · simp only [charsLt, if_neg hab, if_neg hbc, decide_eq_true_eq] at h1 h2
          have hac : a < c := lt_trans h1 h2
          have : ¬ a = c := ne_of_lt hac
          simp [charsLt, this, hac]

theorem mem_insSorted (le : String → String → Bool) (x z : String) (l : List String) :
    z ∈ insSorted le x l ↔ z = x ∨ z ∈ l := by
  induction l with
  | nil => simp [insSorted]
  | cons y ys ih =>
    by_cases h : le x y <;> simp [insSorted, h, ih] <;> tauto

theorem pairwise_insSorted (le : String → String → Bool)
    (htrans : ∀ a b c, le a b = true → le b c = true → le a c = true)
    (htot : ∀ a b, le a b = true ∨ le b a = true)
    (x : String) (l : List String)
    (hl : List.Pairwise (fun a b => le a b = true) l) :
    List.Pairwise (fun a b => le a b = true) (insSorted le x l) := by
  induction l with
  | nil => simp [insSorted]
  | cons y ys ih =>
    rcases hl with _ | ⟨hy, hys⟩
    by_cases h : le x y
    · simp only [insSorted, if_pos h]
      refine List.Pairwise.cons ?_ (List.Pairwise.cons hy hys)
      intro z hz
      rcases List.mem_cons.mp hz with rfl | hz
      · exact h
      · exact htrans _ _ _ h (hy _ hz)
    · simp only [insSorted, if_neg h]
      refine List.Pairwise.cons ?_ (ih hys)
      intro z hz
      rcases (mem_insSorted le x z ys).mp hz with rfl | hz
      · rcases htot z y with h1 | h1
        · exact absurd h1 (by simpa using h)
        · exact h1
      · exact hy _ hz

theorem pairwise_sortBy (le : String → String → Bool)
    (htrans : ∀ a b c, le a b = true → le b c = true → le a c = true)
    (htot : ∀ a b, le a b = true ∨ le b a = true)
    (l : List String) :
    List.Pairwise (fun a b => le a b = true) (sortBy le l) := by
  induction l with
  | nil => simp [sortBy]
  | cons x xs ih => exact pairwise_insSorted le htrans htot x _ ih

theorem lenDescLe_trans (a b c : String) (h1 : lenDescLe a b = true)
    (h2 : lenDescLe b c = true) : lenDescLe a c = true := by
  simp only [lenDescLe, decide_eq_true_eq] at *
  omega

theorem lenDescLe_total (a b : String) : lenDescLe a b = true ∨ lenDescLe b a = true := by
  simp only [lenDescLe, decide_eq_true_eq]
  omega

theorem strLt_false_trans {a b c : String} (h1 : strLt b a = false)
    (h2 : strLt c b = false) : strLt c a = false := by
  unfold strLt at *
  by_cases hca : charsLt c.data a.data = true
  · exfalso
    by_cases hbc : charsLt b.data c.data = true
    · exact absurd (charsLt_trans hbc hca) (by simp [h1])
    · have heq : b.data = c.data := charsLt_connex (by simpa using hbc) h2
      rw [← heq] at hca
      exact absurd hca (by simp [h1])
  · simpa using hca

theorem reloadLe_trans (a b c : String) (h1 : reloadLe a b = true)
    (h2 : reloadLe b c = true) : reloadLe a c = true := by
  simp only [reloadLe, Bool.or_eq_true, Bool.and_eq_true, decide_eq_true_eq,
    Bool.not_eq_true'] at *
  rcases h1 with h1 | ⟨h1e, h1s⟩
  · rcases h2 with h2 | ⟨h2e, h2s⟩
    · exact Or.inl (by omega)
    · exact Or.inl (by omega)
  · rcases h2 with h2 | ⟨h2e, h2s⟩
    · exact Or.inl (by omega)
    · exact Or.inr ⟨by omega, strLt_false_trans h1s h2s⟩

theorem reloadLe_total (a b : String) : reloadLe a b = true ∨ reloadLe b a = true := by
  simp only [reloadLe, Bool.or_eq_true, Bool.and_eq_true, decide_eq_true_eq,
    Bool.not_eq_true']
  by_cases h : a.length = b.length
  · by_cases hs : strLt b a = true
    · refine Or.inr (Or.inr ⟨h.symm, ?_⟩)
      exact charsLt_asymm hs
    · exact Or.inl (Or.inr ⟨h, by simpa using hs⟩)
  · omega

theorem mergeWalk_fst (a b t w : String) (f : Int) (prev : Option String)
    (l : List String) (P : List (SPair × Int)) (I : List (SPair × List String)) :
    (mergeWalk a b t w f prev l P I).1 = mergeList a b t l := by
  induction prev, l, P, I using mergeWalk.induct a b t w f with
  | case1 prev P I => rfl
  | case2 prev x P I => rfl
  | case3 prev x y rest P I hm PI1 PI2 ih =>
    simp only [mergeWalk, if_pos hm, mergeList]
    exact congrArg (t :: ·) ih
  | case4 prev x y rest P I hm ih =>
    simp only [mergeWalk, if_neg hm, mergeList, if_neg hm]
    exact congrArg (x :: ·) ih

theorem concatSyms_mergeList (a b : String) (l : List String) :
    concatSyms (mergeList a b (a ++ b) l) = concatSyms l := by
  induction l using mergeList.induct a b (a ++ b) with
  | case1 x y rest hm ih =>
    simp only [mergeList, if_pos hm]
    simp only [Bool.and_eq_true, decide_eq_true_eq] at hm
    obtain ⟨rfl, rfl⟩ := hm
    rw [concatSyms_cons, concatSyms_cons, concatSyms_cons, ih]
    exact str_append_assoc _ _ _
  | case2 x y rest hm ih =>
    simp only [mergeList, if_neg hm]
    rw [concatSyms_cons, concatSyms_cons, ih]
  | case3 l hl =>
    cases l with
    | nil => rfl
    | cons x rest =>
      cases rest with
      | nil => rfl
      | cons y rest => exact absurd rfl (hl x y rest)

theorem alFind_map_snd {β γ : Type} (g : β → γ) (m : List (String × β)) (k : String) :
    alFind (m.map (fun e => (e.1, g e.2))) k = (alFind m k).map g := by
  induction m with
  | nil => rfl
  | cons e rest ih =>
    by_cases h : e.1 = k <;> simp [alFind, h, ih]

theorem preSplitGo_chop (w : List Char) :
    ∀ (fuel start i : Nat),
      preSplitGo w start i fuel = chopAt w start ((List.range' i fuel).filter (splitCondAt w)) := by
  intro fuel
  induction fuel with
  | zero => intro start i; rfl
  | succ fuel ih =>
    intro start i
    rw [List.range'_succ, List.filter_cons]
    by_cases h : splitCondAt w i
    · simp only [h, if_true, chopAt]
      have hgo : preSplitGo w start i (fuel + 1) =
          ((w.drop start).take (i - start)) :: preSplitGo w i (i + 1) fuel := by
        simp [preSplitGo, h]
      rw [hgo, ih]
    · simp only [h, Bool.false_eq_true, if_false]
      have hgo : preSplitGo w start i (fuel + 1) = preSplitGo w start (i + 1) fuel := by
        simp [preSplitGo, h]
      rw [hgo, ih]

/-- Claim C8: the pre-splitter splits a raw word exactly at the positions
where a lowercase letter is followed by an uppercase letter or where the last
uppercase letter of an uppercase run is followed by a lowercase letter
(`cutPoints`); when no condition fires the word is emitted unchanged, and on
`"getHTTPResponseCode"` it returns `["get", "HTTP", "Response", "Code"]`. -/
theorem claim_c8_pre_splitter :
    pre_split_word "getHTTPResponseCode" = ["get", "HTTP", "Response", "Code"] ∧
    ∀ w : String, w.data ≠ [] →
      (pre_split_word w = (chopAt w.data 0 (cutPoints w.data)).map String.mk ∧
       (cutPoints w.data = [] → pre_split_word w = [w])) := by
  constructor
  · decide
  · intro w hw
    have hemp : w.data.isEmpty = false := by
      cases h : w.data with
      | nil => exact absurd h hw
      | cons c cs => simp [h]
    have hmain : pre_split_word w = (chopAt w.data 0 (cutPoints w.data)).map String.mk := by
      unfold pre_split_word
      rw [hemp]
      simp only [Bool.false_eq_true, if_false]
      rw [preSplitGo_chop w.data (w.data.length - 1) 0 1]
      rfl
    refine ⟨hmain, ?_⟩
    intro hcut
    rw [hmain, hcut]
    show [String.mk (w.data.drop 0)] = [w]
    rw [List.drop_zero, strMkData]

/-- Witness for claim C8 at a concrete input. -/
theorem claim_c8_pre_splitter_witness :
    ("ab" : String).data ≠ [] ∧
    pre_split_word "ab" = (chopAt ("ab" : String).data 0 (cutPoints ("ab" : String).data)).map String.mk :=
  ⟨by decide, (claim_c8_pre_splitter.2 "ab" (by decide)).1⟩

/-- Claim C5: the vocabulary produced by the finalization sort of BPE
training, and likewise the token list rebuilt by `readFromFiles` after
reloading persisted artifacts, are sorted by symbol length in descending
order. -/
theorem claim_c5_vocab_sorted :
    (∀ v : List String,
       List.Sorted (fun a b : String => b.length ≤ a.length) (finalizeVocab v)) ∧
    (∀ v : List String,
       List.Sorted (fun a b : String => b.length ≤ a.length) (reloadSortTokens v)) := by
  constructor
  · intro v
    have h := pairwise_sortBy lenDescLe lenDescLe_trans lenDescLe_total v
    exact h.imp (by
      intro a b hab
      simpa [lenDescLe] using hab)
  · intro v
    have h := pairwise_sortBy reloadLe reloadLe_trans reloadLe_total v
    exact h.imp (by
      intro a b hab
      simp only [reloadLe, Bool.or_eq_true, Bool.and_eq_true, decide_eq_true_eq] at hab
      rcases hab with h1 | ⟨h1, _⟩ <;> omega)

/-- Claim C10: running the single-word segmenter on the empty string emits
nothing at all, not even the end-of-word marker. -/
theorem claim_c10_empty_word :
    ∀ tokens : List String, splitWord tokens "" = some [] := by
  intro tokens
  rfl

/-- Claim C9: at any state where the condition-variable wait of
`ThreadSafeQueue::wait_and_pop` can return (an item is available or the queue
is closed), the call returns `false` popping nothing exactly when the queue
is closed and empty, and in every other case it pops the front item and
returns `true`. -/
theorem claim_c9_wait_and_pop :
    ∀ (T : Type) (q : TSQueue T), (q.items ≠ [] ∨ q.done = true) →
      (((wait_and_pop q).1 = false) ↔ (q.done = true ∧ q.items = [])) ∧
      (∀ x rest, q.items = x :: rest →
         wait_and_pop q = (true, some x, ⟨rest, q.done⟩)) := by
  intro T q hpre
  obtain ⟨items, done⟩ := q
  cases items with
  | nil =>
    have hdone : done = true := by
      rcases hpre with h | h
      · exact absurd rfl h
      · exact h
    subst hdone
    refine ⟨by simp [wait_and_pop], ?_⟩
    intro x rest h
    exact absurd h (by simp)
  | cons x rest =>
    refine ⟨by simp [wait_and_pop], ?_⟩
    intro x' rest' h
    simp only [TSQueue.mk.injEq] at h ⊢
    obtain ⟨rfl, rfl⟩ := h
    simp [wait_and_pop]

/-- Witness for claim C9 at a concrete queue state. -/
theorem claim_c9_wait_and_pop_witness :
    (([1, 2] : List Nat) ≠ [] ∨ false = true) ∧
    wait_and_pop ({ items := [1, 2], done := false } : TSQueue Nat) =
      (true, some 1, ⟨[2], false⟩) := by
  refine ⟨Or.inl (by decide), ?_⟩
  exact (claim_c9_wait_and_pop Nat ⟨[1, 2], false⟩ (Or.inl (by decide))).2 1 [2] rfl

/-- Claim C3: the merge step rebuilds every affected word with the same
non-overlapping left-to-right scan as the naive `merge_pair` rebuild, so
consecutive occurrences such as `a b a b` are both merged in one pass,
yielding `ab ab`. -/
theorem claim_c3_left_to_right_merge :
    (∀ (bp : SPair) (w : String) (f : Int) (prev : Option String) (l : List String) P I,
       (mergeWalk bp.1 bp.2 (bp.1 ++ bp.2) w f prev l P I).1 =
         mergeList bp.1 bp.2 (bp.1 ++ bp.2) l) ∧
    (∀ (bp : SPair) (splits : List (String × List String)) (w : String),
       alFind (merge_pair bp splits) w =
         (alFind splits w).map (mergeList bp.1 bp.2 (bp.1 ++ bp.2))) ∧
    mergeList "a" "b" "ab" ["a", "b", "a", "b"] = ["ab", "ab"] ∧
    alFind (trainStep (setupSt [("abab", 1)])).splits "abab" =
      some ["ab", "ab", "</w>"] := by
  refine ⟨?_, ?_, by decide, by decide⟩
  · intro bp w f prev l P I
    exact mergeWalk_fst bp.1 bp.2 (bp.1 ++ bp.2) w f prev l P I
  · intro bp splits w
    exact alFind_map_snd _ splits w

theorem mem_singletonFold (v : List String) (cs : List Char) (x : String)
    (h : x ∈ v) : x ∈ cs.foldl (fun v c => setIns v (String.singleton c)) v := by
  induction cs generalizing v with
  | nil => exact h
  | cons c cs ih => exact ih _ ((mem_setIns _ _ _).mpr (Or.inr h))

theorem mem_singletonFold_of_mem (v : List String) (cs : List Char) (c : Char)
    (h : c ∈ cs) : String.singleton c ∈ cs.foldl (fun v c => setIns v (String.singleton c)) v := by
  induction cs generalizing v with
  | nil => cases h
  | cons c' cs ih =>
    rcases List.mem_cons.mp h with rfl | h
    · exact mem_singletonFold _ cs _ ((mem_setIns _ _ _).mpr (Or.inl rfl))
    · apply ih
      exact h

theorem clsFold_vocab_mono (wc : List (String × Int))
    (acc : List (String × Int) × List String) (x : String) (h : x ∈ acc.2) :
    x ∈ (wc.foldl clsStep acc).2 := by
  induction wc generalizing acc with
  | nil => exact h
  | cons e wc ih =>
    refine ih _ ?_
    by_cases hb : isWordForBpe e.1 <;> simp only [clsStep, hb] <;> simp
    · exact h
    · exact (mem_setIns _ _ _).mpr (Or.inr h)

theorem clsFold_atomic_mem (wc : List (String × Int))
    (acc : List (String × Int) × List String) (w : String) (n : Int)
    (hmem : (w, n) ∈ wc) (hb : isWordForBpe w = false) :
    w ∈ (wc.foldl clsStep acc).2 := by
  induction wc generalizing acc with
  | nil => cases hmem
  | cons e wc ih =>
    rcases List.mem_cons.mp hmem with he | hmem
    · subst he
      refine clsFold_vocab_mono wc _ w ?_
      simp only [clsStep, hb, Bool.false_eq_true, if_false]
      exact (mem_setIns _ _ _).mpr (Or.inl rfl)
    · apply ih
      exact hmem

theorem clsFold_counts_atomic (wc : List (String × Int))
    (acc : List (String × Int) × List String) (w : String)
    (hb : isWordForBpe w = false) :
    alFind (wc.foldl clsStep acc).1 w = alFind acc.1 w := by
  induction wc generalizing acc with
  | nil => rfl
  | cons e wc ih =>
    rw [List.foldl_cons, ih]
    by_cases he : isWordForBpe e.1
    · simp only [clsStep, he, if_true]
      rw [alFind_alSet]
      have : ¬ e.1 = w := fun hh => by rw [hh] at he; rw [he] at hb; cases hb
      simp [this]
    · simp [clsStep, he]

theorem clsFold_counts_some (wc : List (String × Int))
    (acc : List (String × Int) × List String) (w : String)
    (h : (alFind acc.1 w).isSome) :
    (alFind (wc.foldl clsStep acc).1 w).isSome := by
  induction wc generalizing acc with
  | nil => exact h
  | cons e wc ih =>
    refine ih _ ?_
    by_cases he : isWordForBpe e.1
    · simp only [clsStep, he, if_true]
      rw [alFind_alSet]
      by_cases hew : e.1 = w <;> simp [hew, h]
    · simpa [clsStep, he] using h

theorem clsFold_counts_bpe (wc : List (String × Int))
    (acc : List (String × Int) × List String) (w : String) (n : Int)
    (hmem : (w, n) ∈ wc) (hb : isWordForBpe w = true) :
    (alFind (wc.foldl clsStep acc).1 w).isSome := by
  induction wc generalizing acc with
  | nil => cases hmem
  | cons e wc ih =>
    rcases List.mem_cons.mp hmem with he | hmem
    · subst he
      refine clsFold_counts_some wc _ w ?_
      simp only [clsStep, hb, if_true]
      rw [alFind_alSet, if_pos rfl]
      rfl
    · apply ih
      exact hmem

theorem mem_alSet_key {β : Type} (m : List (String × β)) (k : String) (v : β)
    (k' : String) (v' : β) (h : (k', v') ∈ alSet m k v) :
    (k', v') ∈ m ∨ k' = k := by
  induction m with
  | nil =>
    simp [alSet] at h
    exact Or.inr (by rw [h.1])
  | cons e rest ih =>
    by_cases h1 : e.1 = k
    · obtain ⟨ek, ev⟩ := e
      simp only at h1
      subst h1
      simp only [alSet, if_pos rfl] at h
      rcases List.mem_cons.mp h with hh | hh
      · exact Or.inr (by rw [Prod.mk.injEq] at hh; exact hh.1)
      · exact Or.inl (List.mem_cons_of_mem _ hh)
    · obtain ⟨ek, ev⟩ := e
      simp only at h1
      simp only [alSet, if_neg h1] at h
      by_cases h2 : strLt k ek
      · rw [if_pos h2] at h
        rcases List.mem_cons.mp h with hh | hh
        · exact Or.inr (by rw [Prod.mk.injEq] at hh; exact hh.1)
        · exact Or.inl hh
      · rw [if_neg h2] at h
        rcases List.mem_cons.mp h with hh | hh
        · exact Or.inl (List.mem_cons.mpr (Or.inl hh))
        · rcases ih hh with hh' | hh'
          · exact Or.inl (List.mem_cons_of_mem _ hh')
          · exact Or.inr hh'

theorem clsFold_keys_bpe (wc : List (String × Int))
    (acc : List (String × Int) × List String)
    (hacc : ∀ e ∈ acc.1, isWordForBpe e.1 = true) :
    ∀ e ∈ (wc.foldl clsStep acc).1, isWordForBpe e.1 = true := by
  induction wc generalizing acc with
  | nil => exact hacc
  | cons e wc ih =>
    refine ih _ ?_
    intro e' he'
    by_cases hb : isWordForBpe e.1
    · simp only [clsStep, hb, if_true] at he'
      rcases mem_alSet_key _ _ _ _ _ he' with hh | hh
      · exact hacc _ hh
      · rw [hh]; exact hb
    · simpa [clsStep, hb] using hacc _ (by simpa [clsStep, hb] using he')

theorem svFold_vocab_mono (m : List (String × Int))
    (acc : List (String × List String) × List String) (x : String) (h : x ∈ acc.2) :
    x ∈ (m.foldl svStep acc).2 := by
  induction m generalizing acc with
  | nil => exact h
  | cons e m ih => exact ih _ (mem_singletonFold _ _ _ h)

theorem svFold_splits_stable (m : List (String × Int))
    (acc : List (String × List String) × List String) (w : String)
    (h : alFind acc.1 w = some (initSplit w)) :
    alFind (m.foldl svStep acc).1 w = some (initSplit w) := by
  induction m generalizing acc with
  | nil => exact h
  | cons e m ih =>
    refine ih _ ?_
    simp only [svStep]
    rw [alFind_alSet]
    by_cases he : e.1 = w
    · subst he; simp
    · simp [he, h]

theorem svFold_splits_mem (m : List (String × Int))
    (acc : List (String × List String) × List String) (w : String) (n : Int)
    (hmem : (w, n) ∈ m) :
    alFind (m.foldl svStep acc).1 w = some (initSplit w) := by
  induction m generalizing acc with
  | nil => cases hmem
  | cons e m ih =>
    rcases List.mem_cons.mp hmem with he | hmem
    · subst he
      refine svFold_splits_stable m _ w ?_
      simp only [svStep]
      rw [alFind_alSet, if_pos rfl]
    · apply ih
      exact hmem

theorem svFold_splits_other (m : List (String × Int))
    (acc : List (String × List String) × List String) (w : String)
    (hkeys : ∀ e ∈ m, e.1 ≠ w) :
    alFind (m.foldl svStep acc).1 w = alFind acc.1 w := by
  induction m generalizing acc with
  | nil => rfl
  | cons e m ih =>
    rw [List.foldl_cons, ih _ (fun e' he' => hkeys e' (List.mem_cons_of_mem _ he'))]
    simp only [svStep]
    rw [alFind_alSet]
    simp [hkeys e (List.mem_cons_self e m)]

theorem svFold_chars_vocab (m : List (String × Int))
    (acc : List (String × List String) × List String) (w : String) (n : Int)
    (hmem : (w, n) ∈ m) :
    ∀ c ∈ w.data, String.singleton c ∈ (m.foldl svStep acc).2 := by
  induction m generalizing acc with
  | nil => cases hmem
  | cons e m ih =>
    intro c hc
    rcases List.mem_cons.mp hmem with he | hmem
    · subst he
      exact svFold_vocab_mono m _ _ (mem_singletonFold_of_mem _ _ _ hc)
    · exact ih _ hmem c hc

/-- Claim C4: in BPE setup every word-frequency key that is empty, starts
with a non-letter, or has exactly one character is atomic — it goes into the
vocabulary and is excluded from the BPE structures — while every other key is
kept as a BPE word whose initial split is its characters followed by the
end-of-word marker, all of which are added to the vocabulary. -/
theorem claim_c4_setup_classification (wc : List (String × Int)) (w : String) (n : Int)
    (hmem : (w, n) ∈ wc) :
    (isWordForBpe w = false →
       w ∈ (setupSt wc).vocab ∧ alFind (setupSt wc).counts w = none ∧
       alFind (setupSt wc).splits w = none) ∧
    (isWordForBpe w = true →
       (alFind (setupSt wc).counts w).isSome ∧
       alFind (setupSt wc).splits w = some (initSplit w) ∧
       (∀ c ∈ w.data, String.singleton c ∈ (setupSt wc).vocab) ∧
       EOW ∈ (setupSt wc).vocab) := by
  constructor
  · intro hb
    have hfind : alFind (wc.foldl clsStep ([], [])).1 w = none := by
      rw [clsFold_counts_atomic wc ([], []) w hb]
      rfl
    have hvoc : w ∈ (wc.foldl clsStep ([], [])).2 :=
      clsFold_atomic_mem wc ([], []) w n hmem hb
    by_cases hemp : (wc.foldl clsStep ([], [])).1.isEmpty
    · refine ⟨?_, ?_, ?_⟩ <;> simp only [setupSt, hemp, if_true]
      · exact hvoc
      · rfl
      · rfl
    · have hkeys : ∀ e ∈ (wc.foldl clsStep ([], [])).1, isWordForBpe e.1 = true :=
        clsFold_keys_bpe wc ([], []) (by intro e he; cases he)
    -- in the non-empty branch the splits carry only BPE keys
      refine ⟨?_, ?_, ?_⟩ <;>
        simp only [setupSt, hemp, Bool.false_eq_true, if_false]
      · exact (mem_setIns _ _ _).mpr (Or.inr (svFold_vocab_mono _ _ _ hvoc))
      · exact hfind
      · rw [svFold_splits_other]
        · rfl
        · intro e he hew
          have := hkeys e he
          rw [hew] at this
          rw [this] at hb
          cases hb
  · intro hb
    have hsome : (alFind (wc.foldl clsStep ([], [])).1 w).isSome :=
      clsFold_counts_bpe wc ([], []) w n hmem hb
    obtain ⟨v, hv⟩ := Option.isSome_iff_exists.mp hsome
    have hent : (w, v) ∈ (wc.foldl clsStep ([], [])).1 := alFind_some_mem hv
    have hemp : (wc.foldl clsStep ([], [])).1.isEmpty = false := by
      cases hh : (wc.foldl clsStep ([], [])).1 with
      | nil => rw [hh] at hv; cases hv
      | cons e rest => simp [hh]
    refine ⟨?_, ?_, ?_, ?_⟩ <;>
      simp only [setupSt, hemp, Bool.false_eq_true, if_false]
    · exact hsome
    · exact svFold_splits_mem _ _ w v hent
    · intro c hc
      exact (mem_setIns _ _ _).mpr (Or.inr (svFold_chars_vocab _ _ w v hent c hc))
    · exact (mem_setIns _ _ _).mpr (Or.inl rfl)

/-- Witness for claim C4 at a concrete word-count map. -/
theorem claim_c4_setup_classification_witness :
    (("ab", (1 : Int)) ∈ [(("ab" : String), (1 : Int)), (",", 1)]) ∧
    (isWordForBpe "ab" = true →
       (alFind (setupSt [("ab", 1), (",", 1)]).counts "ab").isSome) :=
  ⟨by decide, fun hb =>
    (claim_c4_setup_classification [("ab", 1), (",", 1)] "ab" 1 (by decide)).2 hb |>.1⟩

theorem concat_initSplit (w : String) : concatSyms (initSplit w) = w ++ EOW := by
  obtain ⟨cs⟩ := w
  unfold initSplit
  induction cs with
  | nil =>
    apply strExt
    simp [concatSyms, String.data_append]
  | cons c cs ih =>
    show concatSyms (List.map String.singleton (c :: cs) ++ [EOW]) = String.mk (c :: cs) ++ EOW
    rw [List.map_cons, List.cons_append, concatSyms_cons, ih]
    apply strExt
    simp [String.data_append, String.singleton]

theorem processWord_splitsOk (counts : List (String × Int)) (bp : SPair)
    (acc : List (String × List String) × List (SPair × Int) × List (SPair × List String))
    (w' : String) (h : SplitsOk counts acc.1) :
    SplitsOk counts (processWord counts bp (bp.1 ++ bp.2) acc w').1 := by
  by_cases hlen : ((alFind acc.1 w').getD []).length < 2
  · have heq : processWord counts bp (bp.1 ++ bp.2) acc w' = acc := by
      simp [processWord, hlen]
    rw [heq]
    exact h
  · have heq : (processWord counts bp (bp.1 ++ bp.2) acc w').1 =
        alSet acc.1 w' (mergeWalk bp.1 bp.2 (bp.1 ++ bp.2) w'
          ((alFind counts w').getD 0) none ((alFind acc.1 w').getD []) acc.2.1 acc.2.2).1 := by
      simp [processWord, hlen]
    rw [heq]
    intro u m hu
    rcases h u m hu with ⟨l, hl, hcat⟩
    by_cases hw : w' = u
    · subst hw
      refine ⟨(mergeWalk bp.1 bp.2 (bp.1 ++ bp.2) w'
          ((alFind counts w').getD 0) none ((alFind acc.1 w').getD []) acc.2.1 acc.2.2).1,
        ?_, ?_⟩
      · rw [alFind_alSet, if_pos rfl]
      · rw [mergeWalk_fst, hl]
        simp only [Option.getD_some]
        rw [concatSyms_mergeList, hcat]
    · refine ⟨l, ?_, hcat⟩
      rw [alFind_alSet, if_neg hw, hl]

theorem foldl_processWord_splitsOk (counts : List (String × Int)) (bp : SPair)
    (ws : List String)
    (acc : List (String × List String) × List (SPair × Int) × List (SPair × List String))
    (h : SplitsOk counts acc.1) :
    SplitsOk counts (ws.foldl (processWord counts bp (bp.1 ++ bp.2)) acc).1 := by
  induction ws generalizing acc with
  | nil => exact h
  | cons w' ws ih => exact ih _ (processWord_splitsOk counts bp acc w' h)

theorem mergeStep_counts (bp : SPair) (st : TrainSt) :
    (mergeStep bp st).counts = st.counts := by
  unfold mergeStep
  cases plFind st.iindex bp <;> rfl

theorem mergeStep_splitsOk (bp : SPair) (st : TrainSt)
    (h : SplitsOk st.counts st.splits) :
    SplitsOk st.counts (mergeStep bp st).splits := by
  unfold mergeStep
  cases hI : plFind st.iindex bp with
  | none => exact h
  | some ws => exact foldl_processWord_splitsOk st.counts bp ws _ h

theorem trainStep_counts (st : TrainSt) : (trainStep st).counts = st.counts := by
  unfold trainStep
  cases selectBest st.pstats with
  | none => rfl
  | some be => exact mergeStep_counts be.1 st

theorem trainStep_splitsOk (st : TrainSt) (h : SplitsOk st.counts st.splits) :
    SplitsOk st.counts (trainStep st).splits := by
  unfold trainStep
  cases selectBest st.pstats with
  | none => exact h
  | some be => exact mergeStep_splitsOk be.1 st h

theorem setupSt_splitsOk (wc : List (String × Int)) :
    SplitsOk (setupSt wc).counts (setupSt wc).splits := by
  by_cases hemp : (wc.foldl clsStep ([], [])).1.isEmpty
  · intro w n hw
    simp only [setupSt, hemp, if_true] at hw
    cases hw
  · intro w n hw
    simp only [setupSt, hemp, Bool.false_eq_true, if_false] at hw ⊢
    exact ⟨initSplit w, svFold_splits_mem _ _ w n hw, concat_initSplit w⟩

/-- Claim C2: at every point of BPE training (after setup and after every
merge step) the stored split of every kept BPE word concatenates back to the
word followed by the end-of-word marker. -/
theorem claim_c2_split_concat (wc : List (String × Int)) (st : TrainSt)
    (h : ReachSt wc st) :
    ∀ w n, (w, n) ∈ st.counts →
      ∃ l, alFind st.splits w = some l ∧ concatSyms l = w ++ EOW := by
  induction h with
  | init => exact setupSt_splitsOk wc
  | step st' _ ih =>
    have hok := trainStep_splitsOk st' ih
    intro w n hw
    rw [trainStep_counts st'] at hw
    exact hok w n hw

/-- Witness for claim C2 at a concrete reachable state. -/
theorem claim_c2_split_concat_witness :
    (("ab", (1 : Int)) ∈ (setupSt [("ab", 1)]).counts) ∧
    ∃ l, alFind (setupSt [("ab", 1)]).splits "ab" = some l ∧
      concatSyms l = "ab" ++ EOW :=
  ⟨by decide,
   claim_c2_split_concat [("ab", 1)] _ (ReachSt.init) "ab" 1 (by decide)⟩

theorem isPfx_append {s l : List Char} (h : isPfx s l = true) :
    s ++ l.drop s.length = l := by
  induction s generalizing l with
  | nil => simp
  | cons a s ih =>
    cases l with
    | nil => simp [isPfx] at h
    | cons b l =>
      simp only [isPfx, Bool.and_eq_true, decide_eq_true_eq] at h
      obtain ⟨rfl, h⟩ := h
      simp only [List.length_cons, List.cons_append, List.drop_succ_cons]
      rw [ih h]

theorem splitWordGo_join (tokens : List String) (hne : ∀ t ∈ tokens, t.data ≠ []) :
    ∀ (fuel : Nat) (cur : List Char), cur.length < fuel →
      ∃ out, splitWordGo tokens fuel cur = some out ∧ concatSyms out = String.mk cur := by
  intro fuel
  induction fuel with
  | zero => intro cur h; omega
  | succ fuel ih =>
    intro cur hlen
    cases cur with
    | nil =>
      refine ⟨[], rfl, ?_⟩
      rfl
    | cons c cur =>
      cases hfind : tokens.find? (fun t => isPfx t.data (c :: cur)) with
      | none =>
        obtain ⟨out, hgo, hcat⟩ := ih cur (by simp at hlen; omega)
        refine ⟨String.singleton c :: out, ?_, ?_⟩
        · simp only [splitWordGo, hfind, hgo]
          rfl
        · rw [concatSyms_cons, hcat]
          apply strExt
          simp [String.data_append, String.singleton]
      | some t =>
        have htmem : t ∈ tokens := List.mem_of_find?_eq_some hfind
        have htp : isPfx t.data (c :: cur) = true :=
          List.find?_some (p := fun u : String => isPfx u.data (c :: cur)) hfind
        have htd : t.data ≠ [] := hne t htmem
        have htemp : t.data.isEmpty = false := by
          cases hh : t.data with
          | nil => exact absurd hh htd
          | cons x xs => simp
        have htlen : 1 ≤ t.data.length := by
          cases hh : t.data with
          | nil => exact absurd hh htd
          | cons x xs => simp
        obtain ⟨out, hgo, hcat⟩ := ih ((c :: cur).drop t.data.length) (by
          rw [List.length_drop]
          simp only [List.length_cons] at hlen ⊢
          omega)
        refine ⟨t :: out, ?_, ?_⟩
        · simp only [splitWordGo, hfind, htemp, Bool.false_eq_true, if_false, hgo]
          rfl
        · rw [concatSyms_cons, hcat]
          apply strExt
          rw [String.data_append]
          exact isPfx_append htp

/-- Counterexample to claim C6 as stated: on the empty input the segmenter
emits nothing, so the concatenation of the emitted symbols is empty and does
not equal the input followed by the end-of-word marker. -/
theorem claim_c6_counterexample :
    splitWord ["a", "</w>"] "" = some [] ∧ concatSyms [] ≠ "" ++ EOW := by
  exact ⟨rfl, by decide⟩

/-- Claim C6 (amended): for a vocabulary without empty symbols the greedy
segmenter terminates on every input, and for every non-empty word the
emitted symbols concatenate to the word followed by the end-of-word marker
(the empty word yields the empty list). -/
theorem claim_c6_segmenter (tokens : List String) (word : String)
    (hne : ∀ t ∈ tokens, t ≠ "") :
    ∃ out, splitWord tokens word = some out ∧
      concatSyms out = if word = "" then "" else word ++ EOW := by
  by_cases hw : word = ""
  · subst hw
    exact ⟨[], rfl, rfl⟩
  · have hemp : word.isEmpty = false := by
      cases hh : word.isEmpty with
      | false => rfl
      | true => exact absurd ((String.isEmpty_iff word).mp hh) hw
    have hne' : ∀ t ∈ tokens, t.data ≠ [] := by
      intro t ht hd
      exact hne t ht (strExt (by simp [hd]))
    obtain ⟨out, hgo, hcat⟩ := splitWordGo_join tokens hne'
      ((word ++ EOW).data.length + 1) (word ++ EOW).data (by omega)
    refine ⟨out, ?_, ?_⟩
    · unfold splitWord
      rw [hemp]
      simp only [Bool.false_eq_true, if_false]
      exact hgo
    · rw [hcat, strMkData, if_neg hw]

/-- Witness for the amended claim C6 at a concrete vocabulary and word. -/
theorem claim_c6_segmenter_witness :
    (∀ t ∈ [("</w>" : String), "a"], t ≠ "") ∧
    ∃ out, splitWord ["</w>", "a"] "a" = some out ∧
      concatSyms out = if ("a" : String) = "" then "" else "a" ++ EOW :=
  ⟨by decide, claim_c6_segmenter ["</w>", "a"] "a" (by decide)⟩

theorem isPfx_refl (s : List Char) : isPfx s s = true := by
  induction s with
  | nil => rfl
  | cons a s ih => simp [isPfx, ih]

theorem isPfx_length {u v : List Char} (h : isPfx u v = true) : u.length ≤ v.length := by
  induction u generalizing v with
  | nil => simp
  | cons a u ih =>
    cases v with
    | nil => simp [isPfx] at h
    | cons b v =>
      simp only [isPfx, Bool.and_eq_true, decide_eq_true_eq] at h
      simpa using ih h.2

theorem isPfx_eq_of_length {u v : List Char} (h : isPfx u v = true)
    (hlen : v.length ≤ u.length) : u = v := by
  induction u generalizing v with
  | nil => cases v with
    | nil => rfl
    | cons b v => simp at hlen
  | cons a u ih =>
    cases v with
    | nil => simp [isPfx] at h
    | cons b v =>
      simp only [isPfx, Bool.and_eq_true, decide_eq_true_eq] at h
      simp only [List.length_cons] at hlen
      rw [h.1, ih h.2 (by omega)]

theorem find?_unique_match (V : List String) (p : String → Bool) (s : String)
    (hs : s ∈ V) (hp : p s = true) (huniq : ∀ t ∈ V, p t = true → t = s) :
    V.find? p = some s := by
  induction V with
  | nil => cases hs
  | cons h rest ih =>
    by_cases hph : p h
    · rw [List.find?_cons_of_pos _ hph]
      rw [huniq h (List.mem_cons_self h rest) hph]
    · rw [List.find?_cons_of_neg _ hph]
      rcases List.mem_cons.mp hs with rfl | hs'
      · exact absurd hp hph
      · exact ih hs' (fun t ht hpt => huniq t (List.mem_cons_of_mem _ ht) hpt)

theorem find?_self_sorted (V : List String) (s : String)
    (hsort : List.Pairwise (fun a b : String => b.length ≤ a.length) V)
    (hs : s ∈ V) :
    V.find? (fun t => isPfx t.data s.data) = some s := by
  induction V with
  | nil => cases hs
  | cons h rest ih =>
    rcases hsort with _ | ⟨hlen, hsort'⟩
    by_cases hph : isPfx h.data s.data
    · rw [List.find?_cons_of_pos _ (by simpa using hph)]
      rcases List.mem_cons.mp hs with rfl | hs'
      · rfl
      · have h1 : h.data.length ≤ s.data.length := isPfx_length hph
        have h2 : s.length ≤ h.length := hlen s hs'
        have h3 : s.data.length ≤ h.data.length := h2
        have : h.data = s.data := isPfx_eq_of_length hph (by omega)
        rw [strExt this]
    · rw [List.find?_cons_of_neg _ (by simpa using hph)]
      rcases List.mem_cons.mp hs with rfl | hs'
      · simp [isPfx_refl] at hph
      · exact ih hsort' hs'

theorem singleton_data (c : Char) : (String.singleton c).data = [c] := rfl

theorem splitWord_single_letter (V : List String) (c : Char)
    (hsort : List.Pairwise (fun a b : String => b.length ≤ a.length) V)
    (hsc : String.singleton c ∈ V) (heow : EOW ∈ V)
    (hpre : ∀ t ∈ V, isPfx t.data (String.singleton c ++ EOW).data = true →
       t = String.singleton c) :
    splitWord V (String.singleton c) = some [String.singleton c, EOW] := by
  have hdata : (String.singleton c ++ EOW).data = c :: '<' :: '/' :: 'w' :: '>' :: [] := by
    rw [String.data_append, singleton_data]
    rfl
  have hemp : (String.singleton c).isEmpty = false := by
    cases hh : (String.singleton c).isEmpty with
    | false => rfl
    | true =>
      have := (String.isEmpty_iff _).mp hh
      have hd := congrArg String.data this
      simp [singleton_data] at hd
  have hfind1 : V.find? (fun t => isPfx t.data (c :: '<' :: '/' :: 'w' :: '>' :: [])) =
      some (String.singleton c) := by
    refine find?_unique_match V _ _ hsc ?_ ?_
    · simp [singleton_data, isPfx]
    · intro t ht hpt
      exact hpre t ht (by rw [hdata]; exact hpt)
  have hfind2 : V.find? (fun t => isPfx t.data ('<' :: '/' :: 'w' :: '>' :: [])) =
      some EOW := by
    have h0 : (EOW.data : List Char) = '<' :: '/' :: 'w' :: '>' :: [] := rfl
    rw [← h0]
    exact find?_self_sorted V EOW hsort heow
  have heowemp : (EOW.data : List Char).isEmpty = false := rfl
  unfold splitWord
  rw [hemp]
  simp only [Bool.false_eq_true, if_false]
  rw [hdata]
  show splitWordGo V ((c :: '<' :: '/' :: 'w' :: '>' :: []).length + 1)
      (c :: '<' :: '/' :: 'w' :: '>' :: []) = some [String.singleton c, EOW]
  have hL : (c :: '<' :: '/' :: 'w' :: '>' :: []).length + 1 = 6 := rfl
  rw [hL]
  simp only [splitWordGo, hfind1, hfind2, singleton_data, heowemp, List.isEmpty_cons,
    Bool.false_eq_true, if_false, List.length_cons, List.length_nil, List.drop_succ_cons,
    List.drop_zero]
  rfl

theorem lowerChar_of_lower {c : Char} (h : isLowerAscii c = true) : lowerChar c = c := by
  unfold lowerChar
  have : isUpperAscii c = false := by
    simp only [isLowerAscii, Bool.and_eq_true, decide_eq_true_eq] at h
    simp only [isUpperAscii, Bool.and_eq_false_iff, decide_eq_false_iff_not]
    omega
  rw [this]
  simp

theorem alpha_of_lower {c : Char} (h : isLowerAscii c = true) : isAlphaAscii c = true := by
  simp only [isLowerAscii, Bool.and_eq_true, decide_eq_true_eq] at h
  simp only [isAlphaAscii, Bool.or_eq_true, Bool.and_eq_true, decide_eq_true_eq]
  omega

theorem sentTokens_singleton_alpha (c : Char) (h : isAlphaAscii c = true) :
    sentTokens (String.singleton c) = [String.singleton c] := by
  show sentScan (String.singleton c).data none = [String.singleton c]
  rw [singleton_data]
  simp only [sentScan, h, if_true, Option.getD_none]
  rfl

theorem sentTokens_singleton_other (c : Char) (ha : isAlphaAscii c = false)
    (hs : isSpaceAscii c = false) :
    sentTokens (String.singleton c) = [String.singleton c] := by
  show sentScan (String.singleton c).data none = [String.singleton c]
  rw [singleton_data]
  simp only [sentScan, ha, hs, Bool.false_eq_true, if_false]

/-- Counterexample to claim C7 as stated: training on the word counts of the
corpus "bc dc" performs one merge, creating the token `c</w>`; the letter `c`
appears in that corpus, yet segmenting the one-character input "c" emits the
single symbol `c</w>`, not `[c, </w>]`. -/
theorem claim_c7_counterexample :
    isLowerAscii 'c' = true ∧ ('c' ∈ ("bc" : String).data) ∧
    splitSentence (groupCommonTokensParallel [("bc", 1), ("dc", 1)] 1) "c" =
      some ["c</w>"] ∧
    some ["c</w>"] ≠ some [("c" : String), "</w>"] := by
  refine ⟨by decide, by decide, by decide, by decide⟩

/-- Claim C7 (amended): segmenting a one-character input emits exactly that
character when it is a non-letter, non-space character; for a lowercase
letter `c` it emits exactly `[c, </w>]` provided the vocabulary is sorted by
descending length, contains `c` and `</w>`, and contains no other symbol that
is a prefix of `c</w>` (the counterexample shows the claim fails when a
merged symbol such as `c</w>` is present). -/
theorem claim_c7_single_char (V : List String) (c : Char) :
    (isAlphaAscii c = false → isSpaceAscii c = false →
       splitSentence V (String.singleton c) = some [String.singleton c]) ∧
    (isLowerAscii c = true →
     List.Pairwise (fun a b : String => b.length ≤ a.length) V →
     String.singleton c ∈ V → EOW ∈ V →
     (∀ t ∈ V, isPfx t.data (String.singleton c ++ EOW).data = true →
        t = String.singleton c) →
       splitSentence V (String.singleton c) = some [String.singleton c, EOW]) := by
  constructor
  · intro ha hs
    unfold splitSentence
    rw [sentTokens_singleton_other c ha hs]
    simp only [List.foldr_cons, List.foldr_nil]
    rw [singleton_data]
    simp only [List.headD_cons, ha, Bool.false_eq_true, if_false]
    rfl
  · intro hc hsort hsc heow hpre
    have ha : isAlphaAscii c = true := alpha_of_lower hc
    unfold splitSentence
    rw [sentTokens_singleton_alpha c ha]
    simp only [List.foldr_cons, List.foldr_nil]
    rw [singleton_data]
    simp only [List.headD_cons, ha, if_true]
    have hlow : lowerStr (String.singleton c) = String.singleton c := by
      unfold lowerStr
      rw [singleton_data]
      simp only [List.map_cons, List.map_nil, lowerChar_of_lower hc]
      rfl
    rw [hlow, splitWord_single_letter V c hsort hsc heow hpre]
    rfl

/-- Witness for the amended claim C7 at a concrete vocabulary and letter. -/
theorem claim_c7_single_char_witness :
    isLowerAscii 'a' = true ∧
    splitSentence ["</w>", "a", "<"] (String.singleton 'a') =
      some [String.singleton 'a', EOW] :=
  ⟨by decide,
   (claim_c7_single_char ["</w>", "a", "<"] 'a').2 (by decide) (by decide)
     (by decide) (by decide) (by decide)⟩

theorem getD_toOptZ {x : Int} (h : 0 ≤ x) : (toOptZ x).getD 0 = x := by
  unfold toOptZ
  by_cases hx : x ≤ 0
  · simp [hx]
    omega
  · simp [hx]

theorem plFind_psBump_ne (P : List (SPair × Int)) (pr q : SPair) (d : Int)
    (h : pr ≠ q) : plFind (psBump P pr d) q = plFind P q := by
  unfold psBump
  rw [plFind_plSet, if_neg h]

theorem plFind_psDec_ne (P : List (SPair × Int)) (pr q : SPair) (f : Int)
    (h : pr ≠ q) : plFind (psDec P pr f) q = plFind P q := by
  unfold psDec
  by_cases hc : ((plFind (psBump P pr (-f)) pr).getD 0) ≤ 0
  · simp only [hc, if_true]
    rw [plFind_plErase, if_neg h]
    exact plFind_psBump_ne P pr q (-f) h
  · simp only [hc, if_false]
    exact plFind_psBump_ne P pr q (-f) h

theorem plFind_psBump_self {P : List (SPair × Int)} {pr : SPair} {x f : Int}
    (hP : plFind P pr = toOptZ x) (hx : 0 ≤ x) (hf : 0 < f) :
    plFind (psBump P pr f) pr = toOptZ (x + f) := by
  unfold psBump
  rw [plFind_plSet, if_pos rfl, hP, getD_toOptZ hx]
  unfold toOptZ
  rw [if_neg (by omega)]

theorem plFind_psDec_self {P : List (SPair × Int)} {pr : SPair} {x f : Int}
    (hP : plFind P pr = toOptZ x) (hxf : f ≤ x) (hf : 0 < f) :
    plFind (psDec P pr f) pr = toOptZ (x - f) := by
  have hb : plFind (psBump P pr (-f)) pr = some (x - f) := by
    unfold psBump
    rw [plFind_plSet, if_pos rfl, hP, getD_toOptZ (by omega)]
    congr 1
  simp only [psDec, hb, Option.getD_some]
  by_cases hc : x - f ≤ 0
  · rw [if_pos hc, plFind_plErase, if_pos rfl]
    unfold toOptZ
    rw [if_pos hc]
  · rw [if_neg hc, hb]
    unfold toOptZ
    rw [if_neg hc]

theorem cntP_cons (p q : SPair) (l : List SPair) :
    cntP p (q :: l) = cntP p l + (if q = p then 1 else 0) := by
  unfold cntP
  rw [List.countP_cons]
  by_cases h : q = p <;> simp [h]

theorem pairsOf_cons2 (x y : String) (l : List String) :
    pairsOf (x :: y :: l) = (x, y) :: pairsOf (y :: l) := rfl

theorem pairsOf_one (x : String) : pairsOf [x] = [] := rfl

theorem pairsOf_nil : pairsOf [] = [] := rfl

theorem totalPairs_cons (e : String × Int) (rest : List (String × Int))
    (splits : List (String × List String)) (p : SPair) :
    totalPairs (e :: rest) splits p =
      e.2 * (cntP p (pairsOf ((alFind splits e.1).getD [])) : Int) +
        totalPairs rest splits p := by
  unfold totalPairs
  rw [List.map_cons, List.sum_cons]

theorem totalPairs_nil (splits : List (String × List String)) (p : SPair) :
    totalPairs [] splits p = 0 := rfl

theorem totalPairs_nonneg (counts : List (String × Int))
    (splits : List (String × List String)) (p : SPair)
    (h : ∀ e ∈ counts, 1 ≤ e.2) : 0 ≤ totalPairs counts splits p := by
  induction counts with
  | nil => simp [totalPairs_nil]
  | cons e rest ih =>
    rw [totalPairs_cons]
    have h1 : 1 ≤ e.2 := h e (List.mem_cons_self e rest)
    have h2 : 0 ≤ totalPairs rest splits p :=
      ih (fun e' he' => h e' (List.mem_cons_of_mem _ he'))
    have h3 : (0 : Int) ≤ (cntP p (pairsOf ((alFind splits e.1).getD [])) : Int) := by
      exact_mod_cast Nat.zero_le _
    nlinarith

theorem totalPairs_term_le (counts : List (String × Int))
    (splits : List (String × List String)) (p : SPair)
    (hpos : ∀ e ∈ counts, 1 ≤ e.2) (w : String) (n : Int) (hmem : (w, n) ∈ counts) :
    n * (cntP p (pairsOf ((alFind splits w).getD [])) : Int) ≤
      totalPairs counts splits p := by
  induction counts with
  | nil => cases hmem
  | cons e rest ih =>
    rw [totalPairs_cons]
    rcases List.mem_cons.mp hmem with he | hmem'
    · have h2 : 0 ≤ totalPairs rest splits p :=
        totalPairs_nonneg rest splits p (fun e' he' => hpos e' (List.mem_cons_of_mem _ he'))
      rw [← he]
      show n * (cntP p (pairsOf ((alFind splits w).getD [])) : Int) ≤
        n * (cntP p (pairsOf ((alFind splits w).getD [])) : Int) + totalPairs rest splits p
      omega
    · have h1 : 1 ≤ e.2 := hpos e (List.mem_cons_self e rest)
      have h3 : (0 : Int) ≤ (cntP p (pairsOf ((alFind splits e.1).getD [])) : Int) := by
        exact_mod_cast Nat.zero_le _
      have := ih (fun e' he' => hpos e' (List.mem_cons_of_mem _ he')) hmem'
      nlinarith

theorem psBumpFold_char (n : Int) (hn : 1 ≤ n) :
    ∀ (prs : List SPair) (P : List (SPair × Int)) (T : SPair → Int),
      (∀ p, plFind P p = toOptZ (T p)) → (∀ p, 0 ≤ T p) →
      ∀ p, plFind (prs.foldl (fun P pr => psBump P pr n) P) p =
        toOptZ (T p + n * (cntP p prs : Int)) := by
  intro prs
  induction prs with
  | nil =>
    intro P T hP hT p
    simp only [List.foldl_nil, cntP, List.countP_nil]
    rw [hP p]
    congr 1
    omega
  | cons pr rest ih =>
    intro P T hP hT p
    rw [List.foldl_cons]
    have hstep := ih (psBump P pr n) (fun q => T q + (if pr = q then n else 0)) ?_ ?_ p
    · rw [hstep, cntP_cons]
      congr 1
      by_cases hpq : pr = p <;> simp [hpq] <;> push_cast <;> ring
    · intro q
      show plFind (psBump P pr n) q = toOptZ (T q + if pr = q then n else 0)
      by_cases hq : pr = q
      · subst hq
        rw [if_pos rfl]
        exact plFind_psBump_self (hP pr) (hT pr) (by omega)
      · rw [if_neg hq, plFind_psBump_ne P pr q n hq]
        rw [hP q]
        congr 1
        omega
    · intro q
      show 0 ≤ T q + if pr = q then n else 0
      have := hT q
      by_cases hq : pr = q <;> simp [hq] <;> omega

theorem gpsFold_char (splits : List (String × List String)) :
    ∀ (counts : List (String × Int)), (∀ e ∈ counts, 1 ≤ e.2) →
      ∀ (P : List (SPair × Int)) (T : SPair → Int),
        (∀ p, plFind P p = toOptZ (T p)) → (∀ p, 0 ≤ T p) →
        ∀ p, plFind (counts.foldl
            (fun P e => (pairsOf ((alFind splits e.1).getD [])).foldl
              (fun P pr => psBump P pr e.2) P) P) p =
          toOptZ (T p + totalPairs counts splits p) := by
  intro counts
  induction counts with
  | nil =>
    intro _ P T hP hT p
    simp only [List.foldl_nil, totalPairs_nil]
    rw [hP p]
    congr 1
    omega
  | cons e rest ih =>
    intro hpos P T hP hT p
    rw [List.foldl_cons]
    have hinner := psBumpFold_char e.2 (hpos e (List.mem_cons_self e rest))
      (pairsOf ((alFind splits e.1).getD [])) P T hP hT
    have houter := ih (fun e' he' => hpos e' (List.mem_cons_of_mem _ he'))
      _ (fun q => T q + e.2 * (cntP q (pairsOf ((alFind splits e.1).getD [])) : Int))
      hinner ?_ p
    · rw [houter, totalPairs_cons]
      congr 1
      ring
    · intro q
      show 0 ≤ T q + e.2 * (cntP q (pairsOf ((alFind splits e.1).getD [])) : Int)
      have h1 : 1 ≤ e.2 := hpos e (List.mem_cons_self e rest)
      have h2 : (0 : Int) ≤ (cntP q (pairsOf ((alFind splits e.1).getD [])) : Int) :=
        by exact_mod_cast Nat.zero_le _
      have h3 := mul_nonneg (by omega : (0 : Int) ≤ e.2) h2
      have := hT q
      omega

theorem get_pair_stats_char (counts : List (String × Int))
    (splits : List (String × List String)) (hpos : ∀ e ∈ counts, 1 ≤ e.2) :
    ∀ p, plFind (get_pair_stats counts splits) p = toOptZ (totalPairs counts splits p) := by
  intro p
  have := gpsFold_char splits counts hpos [] (fun _ => 0)
    (fun q => by unfold toOptZ; simp [plFind]) (fun q => le_refl 0) p
  unfold get_pair_stats
  rw [this]
  congr 1
  omega

theorem evDelta_cons (p : SPair) (e : Bool × SPair) (evs : List (Bool × SPair)) :
    evDelta p (e :: evs) =
      (if e.2 = p then (if e.1 then (1 : Int) else -1) else 0) + evDelta p evs := by
  unfold evDelta
  rw [List.map_cons, List.sum_cons]

theorem decCount_cons (p : SPair) (e : Bool × SPair) (evs : List (Bool × SPair)) :
    (decCount p (e :: evs) : Int) =
      (if (!e.1 && decide (e.2 = p)) = true then 1 else 0) + (decCount p evs : Int) := by
  unfold decCount
  rw [List.countP_cons]
  by_cases h : (!e.1 && decide (e.2 = p)) = true <;> simp [h] <;> omega


theorem applyEvent_bump {f : Int} {P : List (SPair × Int)} {e : Bool × SPair}
    (h : e.1 = true) : applyEvent f P e = psBump P e.2 f := by
  unfold applyEvent
  rw [h]
  simp

theorem applyEvent_dec {f : Int} {P : List (SPair × Int)} {e : Bool × SPair}
    (h : e.1 = false) : applyEvent f P e = psDec P e.2 f := by
  unfold applyEvent
  rw [h]
  simp

theorem decCount_cons_dec {e : Bool × SPair} {r : SPair} (h1 : e.1 = false)
    (h2 : e.2 = r) (evs : List (Bool × SPair)) :
    (decCount r (e :: evs) : Int) = (decCount r evs : Int) + 1 := by
  unfold decCount
  rw [List.countP_cons]
  simp [h1, h2]

theorem decCount_cons_same {e : Bool × SPair} {r : SPair}
    (h : e.1 = true ∨ e.2 ≠ r) (evs : List (Bool × SPair)) :
    decCount r (e :: evs) = decCount r evs := by
  unfold decCount
  rw [List.countP_cons]
  rcases h with h | h <;> simp [h]

theorem applyEvents_char (bp : SPair) (f : Int) (hf : 1 ≤ f) :
    ∀ (evs : List (Bool × SPair)) (P : List (SPair × Int)) (T : SPair → Int),
      (∀ p, p ≠ bp → plFind P p = toOptZ (T p)) →
      (∀ p, p ≠ bp → 0 ≤ T p) →
      (∀ p, p ≠ bp → f * (decCount p evs : Int) ≤ T p) →
      ∀ p, p ≠ bp → plFind (applyEvents f P evs) p = toOptZ (T p + f * evDelta p evs) := by
  intro evs
  induction evs with
  | nil =>
    intro P T hP hT hback p hp
    simp only [applyEvents, List.foldl_nil]
    rw [hP p hp]
    unfold evDelta
    simp
  | cons e evs ih =>
    intro P T hP hT hback p hp
    have hstep : applyEvents f P (e :: evs) = applyEvents f (applyEvent f P e) evs := rfl
    rw [hstep]
    have key := ih (applyEvent f P e)
      (fun r => if r = e.2 then T r + (if e.1 then f else -f) else T r) ?_ ?_ ?_ p hp
    · rw [key, evDelta_cons]
      beta_reduce
      by_cases hpq : p = e.2
      · rw [if_pos hpq, if_pos hpq.symm]
        congr 1
        cases he1 : e.1 <;> simp <;> ring
      · rw [if_neg hpq, if_neg (fun hh => hpq hh.symm)]
        congr 1
        ring
    · intro r hr
      show plFind (applyEvent f P e) r =
        toOptZ (if r = e.2 then T r + (if e.1 then f else -f) else T r)
      by_cases hre : r = e.2
      · rw [if_pos hre]
        cases he1 : e.1 with
        | true =>
          rw [applyEvent_bump he1]
          simp only [if_true]
          rw [hre]
          exact plFind_psBump_self (hP e.2 (hre ▸ hr)) (hT e.2 (hre ▸ hr)) (by omega)
        | false =>
          rw [applyEvent_dec he1]
          simp only [Bool.false_eq_true, if_false]
          have hdc : (1 : Int) ≤ (decCount r (e :: evs) : Int) := by
            rw [decCount_cons_dec he1 hre.symm]
            have : (0 : Int) ≤ (decCount r evs : Int) := by positivity
            omega
          have hTf : f ≤ T r := by
            have hb := hback r hr
            nlinarith
          have hgoal := plFind_psDec_self (hP e.2 (hre ▸ hr)) (hre ▸ hTf) (by omega)
          rw [hre]
          rw [hgoal]
          congr 1
      · rw [if_neg hre]
        have hne : e.2 ≠ r := fun hh => hre hh.symm
        cases he1 : e.1 with
        | true =>
          rw [applyEvent_bump he1, plFind_psBump_ne P e.2 r f hne]
          exact hP r hr
        | false =>
          rw [applyEvent_dec he1, plFind_psDec_ne P e.2 r f hne]
          exact hP r hr
    · intro r hr
      show 0 ≤ if r = e.2 then T r + (if e.1 then f else -f) else T r
      by_cases hre : r = e.2
      · rw [if_pos hre]
        cases he1 : e.1 with
        | true =>
          simp only [if_true]
          have := hT r hr
          omega
        | false =>
          simp only [Bool.false_eq_true, if_false]
          have hb := hback r hr
          have hdc : (1 : Int) ≤ (decCount r (e :: evs) : Int) := by
            rw [decCount_cons_dec he1 hre.symm]
            have : (0 : Int) ≤ (decCount r evs : Int) := by positivity
            omega
          nlinarith
      · rw [if_neg hre]
        exact hT r hr
    · intro r hr
      show f * (decCount r evs : Int) ≤ if r = e.2 then T r + (if e.1 then f else -f) else T r
      have hb := hback r hr
      by_cases hre : r = e.2
      · rw [if_pos hre]
        cases he1 : e.1 with
        | true =>
          simp only [if_true]
          rw [decCount_cons_same (Or.inl he1)] at hb
          omega
        | false =>
          simp only [Bool.false_eq_true, if_false]
          rw [decCount_cons_dec he1 hre.symm] at hb
          nlinarith
      · rw [if_neg hre]
        rw [decCount_cons_same (Or.inr (fun hh => hre hh.symm))] at hb
        exact hb

theorem applyEvents_nil (f : Int) (P : List (SPair × Int)) : applyEvents f P [] = P := rfl

theorem applyEvents_cons (f : Int) (P : List (SPair × Int)) (e : Bool × SPair)
    (evs : List (Bool × SPair)) :
    applyEvents f P (e :: evs) = applyEvents f (applyEvent f P e) evs := rfl

theorem applyEvents_append (f : Int) (P : List (SPair × Int))
    (l1 l2 : List (Bool × SPair)) :
    applyEvents f P (l1 ++ l2) = applyEvents f (applyEvents f P l1) l2 := by
  unfold applyEvents
  exact List.foldl_append _ _ _ _

theorem mergeWalk_pstats (a b t w : String) (f : Int) (prev : Option String)
    (l : List String) (P : List (SPair × Int)) (I : List (SPair × List String)) :
    (mergeWalk a b t w f prev l P I).2.1 = applyEvents f P (mergeEvents a b t prev l) := by
  induction prev, l, P, I using mergeWalk.induct a b t w f with
  | case1 prev P I => rfl
  | case2 prev x P I => rfl
  | case3 prev x y rest P I hm PI1 PI2 ih =>
    simp only [mergeWalk, if_pos hm, mergeEvents]
    cases prev with
    | none =>
      cases rest with
      | nil => simpa [applyEvents_nil, applyEvents_cons, applyEvents_append] using ih
      | cons z rest' =>
        simpa [applyEvents_nil, applyEvents_cons, applyEvents_append, applyEvent] using ih
    | some pv =>
      cases rest with
      | nil => simpa [applyEvents_nil, applyEvents_cons, applyEvents_append, applyEvent] using ih
      | cons z rest' =>
        simpa [applyEvents_nil, applyEvents_cons, applyEvents_append, applyEvent] using ih
  | case4 prev x y rest P I hm ih =>
    simp only [mergeWalk, if_neg hm, mergeEvents]
    exact ih

theorem evDelta_append (p : SPair) (l1 l2 : List (Bool × SPair)) :
    evDelta p (l1 ++ l2) = evDelta p l1 + evDelta p l2 := by
  unfold evDelta
  rw [List.map_append, List.sum_append]

theorem decCount_append (p : SPair) (l1 l2 : List (Bool × SPair)) :
    decCount p (l1 ++ l2) = decCount p l1 + decCount p l2 := by
  unfold decCount
  rw [List.countP_append]

theorem evDelta_nil (p : SPair) : evDelta p [] = 0 := rfl

theorem decCount_nil (p : SPair) : decCount p [] = 0 := rfl

theorem hasABAB_tail {a b x : String} {l : List String}
    (h : hasABAB a b (x :: l) = false) : hasABAB a b l = false := by
  match l with
  | [] => rfl
  | [y] => rfl
  | [y, z] => rfl
  | y :: z :: u :: rest =>
    unfold hasABAB at h
    simp only [Bool.or_eq_false_iff] at h
    exact h.2

theorem hasABAB_head {a b z u : String} {rest : List String}
    (h : hasABAB a b (a :: b :: z :: u :: rest) = false) : ¬(z = a ∧ u = b) := by
  unfold hasABAB at h
  simp only [Bool.or_eq_false_iff, Bool.and_eq_false_iff] at h
  rintro ⟨rfl, rfl⟩
  rcases h.1 with h1 | h1
  · rcases h1 with h2 | h2
    · rcases h2 with h3 | h3 <;> simp at h3
    · simp at h2
  · simp at h1

theorem mergeList_head_ne (a b t z : String) (rest : List String)
    (h : ¬(z = a ∧ rest.head? = some b)) :
    ∃ m, mergeList a b t (z :: rest) = z :: m := by
  cases rest with
  | nil => exact ⟨[], rfl⟩
  | cons w rest' =>
    have hc : ¬(z = a ∧ w = b) := by
      intro ⟨h1, h2⟩
      exact h ⟨h1, by rw [h2]; rfl⟩
    refine ⟨mergeList a b t (w :: rest'), ?_⟩
    have : (decide (z = a) && decide (w = b)) = false := by
      rcases Decidable.em (z = a) with hz | hz
      · rcases Decidable.em (w = b) with hw | hw
        · exact absurd ⟨hz, hw⟩ hc
        · simp [hw]
      · simp [hz]
    simp [mergeList, this]

theorem cntP_nil (p : SPair) : cntP p [] = 0 := rfl

theorem hasABAB_head_opt {a b z : String} {rest : List String}
    (h : hasABAB a b (a :: b :: z :: rest) = false) :
    ¬(z = a ∧ rest.head? = some b) := by
  cases rest with
  | nil => rintro ⟨_, h2⟩; cases h2
  | cons u r =>
    intro ⟨h1, h2⟩
    have h2u : u = b := by
      simpa using h2
    exact hasABAB_head h ⟨h1, h2u⟩

theorem mergeEvents_delta (a b t : String) (prev : Option String) (l : List String) :
    hasABAB a b (optCons prev l) = false →
    ∀ p : SPair, p ≠ (a, b) →
      evDelta p (mergeEvents a b t prev l) =
        (cntP p (pairsOf (optCons prev (mergeList a b t l))) : Int) -
          (cntP p (pairsOf (optCons prev l)) : Int) := by
  induction prev, l using mergeEvents.induct a b t with
  | case1 prev x y rest hm ih =>
    simp only [Bool.and_eq_true, decide_eq_true_eq] at hm
    obtain ⟨rfl, rfl⟩ := hm
    intro h p hp
    have hab : ¬((x, y) = p) := fun he => hp he.symm
    cases prev with
    | none =>
      cases rest with
      | nil =>
        have hE : mergeEvents x y t none [x, y] = [] := by simp [mergeEvents]
        have hL : mergeList x y t [x, y] = [t] := by simp [mergeList]
        simp [optCons, hE, hL, evDelta_nil, pairsOf_one, pairsOf_cons2,
          pairsOf_nil, cntP_cons, cntP_nil, hab]
      | cons z rest' =>
        have hnz := hasABAB_head_opt (by simpa [optCons] using h)
        obtain ⟨m, hmEq⟩ := mergeList_head_ne x y t z rest' hnz
        have hsub : hasABAB x y (y :: z :: rest') = false :=
          hasABAB_tail (by simpa [optCons] using h)
        have ihs := ih (by simpa [optCons] using hsub) p hp
        rw [hmEq] at ihs
        have hE : mergeEvents x y t none (x :: y :: z :: rest') =
            [(false, (y, z)), (true, (t, z))] ++ mergeEvents x y t (some y) (z :: rest') := by
          simp [mergeEvents]
        have hL : mergeList x y t (x :: y :: z :: rest') = t :: mergeList x y t (z :: rest') := by
          simp [mergeList]
        rw [hE, hL, hmEq]
        simp only [optCons] at ihs ⊢
        rw [evDelta_append, ihs]
        simp only [evDelta_cons, evDelta_nil, pairsOf_cons2, cntP_cons]
        simp only [Prod.mk.injEq] at *
        split_ifs <;> simp_all <;> omega
    | some pv =>
      cases rest with
      | nil =>
        have hE : mergeEvents x y t (some pv) [x, y] =
            [(false, (pv, x)), (true, (pv, t))] := by simp [mergeEvents]
        have hL : mergeList x y t [x, y] = [t] := by simp [mergeList]
        rw [hE, hL]
        simp only [optCons, evDelta_cons, evDelta_nil, pairsOf_cons2, pairsOf_one,
          pairsOf_nil, cntP_cons, cntP_nil]
        split_ifs <;> simp_all <;> omega
      | cons z rest' =>
        have hnz := hasABAB_head_opt (hasABAB_tail (by simpa [optCons] using h))
        obtain ⟨m, hmEq⟩ := mergeList_head_ne x y t z rest' hnz
        have hsub : hasABAB x y (y :: z :: rest') = false :=
          hasABAB_tail (hasABAB_tail (by simpa [optCons] using h))
        have ihs := ih (by simpa [optCons] using hsub) p hp
        rw [hmEq] at ihs
        have hE : mergeEvents x y t (some pv) (x :: y :: z :: rest') =
            [(false, (pv, x)), (true, (pv, t))] ++ [(false, (y, z)), (true, (t, z))] ++
              mergeEvents x y t (some y) (z :: rest') := by
          simp [mergeEvents]
        have hL : mergeList x y t (x :: y :: z :: rest') = t :: mergeList x y t (z :: rest') := by
          simp [mergeList]
        rw [hE, hL, hmEq]
        simp only [optCons] at ihs ⊢
        rw [evDelta_append, evDelta_append, ihs]
        simp only [evDelta_cons, evDelta_nil, pairsOf_cons2, cntP_cons]
        split_ifs <;> simp_all <;> omega
  | case2 prev x y rest hm ih =>
    intro h p hp
    have hE : mergeEvents a b t prev (x :: y :: rest) =
        mergeEvents a b t (some x) (y :: rest) := by
      simp only [mergeEvents, if_neg hm]
    have hL : mergeList a b t (x :: y :: rest) = x :: mergeList a b t (y :: rest) := by
      simp only [mergeList, if_neg hm]
    have hsub : hasABAB a b (x :: y :: rest) = false := by
      cases prev with
      | none => simpa [optCons] using h
      | some pv => exact hasABAB_tail (by simpa [optCons] using h)
    have ihs := ih (by simpa [optCons] using hsub) p hp
    rw [hE, hL, ihs]
    cases prev with
    | none => simp [optCons]
    | some pv =>
      simp only [optCons]
      rw [pairsOf_cons2 pv x (mergeList a b t (y :: rest)), cntP_cons,
        pairsOf_cons2 pv x (y :: rest), cntP_cons]
      push_cast
      ring
  | case3 l pv hshape =>
    intro h p hp
    have hE : mergeEvents a b t pv l = [] := by
      cases l with
      | nil => rfl
      | cons x rest =>
        cases rest with
        | nil => rfl
        | cons y r => exact absurd rfl (fun hc => hshape x y r hc)
    have hL : mergeList a b t l = l := by
      cases l with
      | nil => rfl
      | cons x rest =>
        cases rest with
        | nil => rfl
        | cons y r => exact absurd rfl (fun hc => hshape x y r hc)
    rw [hE, hL, evDelta_nil]
    omega

theorem bnd_none (a b : String) (p : SPair) (l : List String) :
    bnd a b p none l = 0 := by
  cases l with
  | nil => rfl
  | cons x r =>
    cases r with
    | nil => rfl
    | cons y rr => rfl

theorem bnd_some_nil (a b : String) (p : SPair) (pv : String) :
    bnd a b p (some pv) [] = 0 := rfl

theorem bnd_some_one (a b : String) (p : SPair) (pv x : String) :
    bnd a b p (some pv) [x] = 0 := rfl

theorem bnd_some_cons2 (a b : String) (p : SPair) (pv x y : String) (rest : List String) :
    bnd a b p (some pv) (x :: y :: rest) =
      if x = a ∧ y = b ∧ p = (pv, a) then 1 else 0 := rfl

theorem bnd_nonneg (a b : String) (p : SPair) (prev : Option String) (l : List String) :
    0 ≤ bnd a b p prev l := by
  rcases prev with _ | pv
  · rw [bnd_none]
  · rcases l with _ | ⟨x, _ | ⟨y, rest⟩⟩
    · rw [bnd_some_nil]
    · rw [bnd_some_one]
    · rw [bnd_some_cons2]
      split_ifs <;> omega

theorem bnd_zero_ne (a b : String) (p : SPair) (pv z : String) (rest : List String)
    (h : ¬(z = a ∧ rest.head? = some b)) : bnd a b p (some pv) (z :: rest) = 0 := by
  cases rest with
  | nil => rfl
  | cons w r =>
    rw [bnd_some_cons2, if_neg]
    rintro ⟨h1, h2, _⟩
    exact h ⟨h1, by rw [List.head?_cons, h2]⟩

theorem decCount_two (p q1 q2 : SPair) :
    decCount p [(false, q1), (true, q2)] = (if q1 = p then 1 else 0) := by
  by_cases h : q1 = p <;> simp [decCount, h]

theorem mergeEvents_decCount (a b t : String) (prev : Option String) (l : List String) :
    hasABAB a b (optCons prev l) = false →
    ∀ p : SPair,
      (decCount p (mergeEvents a b t prev l) : Int) ≤
        bnd a b p prev l + (cntP p (pairsOf l) : Int) := by
  induction prev, l using mergeEvents.induct a b t with
  | case1 prev x y rest hm ih =>
    simp only [Bool.and_eq_true, decide_eq_true_eq] at hm
    obtain ⟨rfl, rfl⟩ := hm
    intro h p
    cases prev with
    | none =>
      cases rest with
      | nil =>
        have hE : mergeEvents x y t none [x, y] = [] := by simp [mergeEvents]
        rw [hE, decCount_nil, bnd_none]
        have h0 : (0 : Int) ≤ (cntP p (pairsOf [x, y]) : Int) := Int.ofNat_nonneg _
        omega
      | cons z rest' =>
        have hnz := hasABAB_head_opt (a := x) (b := y) (by simpa [optCons] using h)
        have hsub : hasABAB x y (y :: z :: rest') = false :=
          hasABAB_tail (by simpa [optCons] using h)
        have ihs := ih (by simpa [optCons] using hsub) p
        rw [bnd_zero_ne x y p y z rest' hnz] at ihs
        have hE : mergeEvents x y t none (x :: y :: z :: rest') =
            [(false, (y, z)), (true, (t, z))] ++ mergeEvents x y t (some y) (z :: rest') := by
          simp [mergeEvents]
        rw [hE, bnd_none]
        push_cast [decCount_append, decCount_two, pairsOf_cons2, cntP_cons]
        simp only [eq_comm, eq_self_iff_true, true_and]
        split_ifs <;> omega
    | some pv =>
      cases rest with
      | nil =>
        have hE : mergeEvents x y t (some pv) [x, y] =
            [(false, (pv, x)), (true, (pv, t))] := by simp [mergeEvents]
        rw [hE, bnd_some_cons2]
        push_cast [decCount_two, pairsOf_cons2, pairsOf_one, cntP_cons, cntP_nil]
        simp only [eq_comm, eq_self_iff_true, true_and]
        split_ifs <;> omega
      | cons z rest' =>
        have hnz := hasABAB_head_opt (a := x) (b := y)
          (hasABAB_tail (by simpa [optCons] using h))
        have hsub : hasABAB x y (y :: z :: rest') = false :=
          hasABAB_tail (hasABAB_tail (by simpa [optCons] using h))
        have ihs := ih (by simpa [optCons] using hsub) p
        rw [bnd_zero_ne x y p y z rest' hnz] at ihs
        have hE : mergeEvents x y t (some pv) (x :: y :: z :: rest') =
            [(false, (pv, x)), (true, (pv, t))] ++ [(false, (y, z)), (true, (t, z))] ++
              mergeEvents x y t (some y) (z :: rest') := by
          simp [mergeEvents]
        rw [hE, bnd_some_cons2]
        push_cast [decCount_append, decCount_two, pairsOf_cons2, cntP_cons]
        simp only [eq_comm, eq_self_iff_true, true_and]
        split_ifs <;> omega
  | case2 prev x y rest hm ih =>
    intro h p
    have hE : mergeEvents a b t prev (x :: y :: rest) =
        mergeEvents a b t (some x) (y :: rest) := by
      simp only [mergeEvents, if_neg hm]
    have hsub : hasABAB a b (x :: y :: rest) = false := by
      cases prev with
      | none => simpa [optCons] using h
      | some pv => exact hasABAB_tail (by simpa [optCons] using h)
    have ihs := ih (by simpa [optCons] using hsub) p
    have hb2 : bnd a b p (some x) (y :: rest) ≤ (if (x, y) = p then (1 : Int) else 0) := by
      cases rest with
      | nil =>
        rw [bnd_some_one]
        split_ifs <;> omega
      | cons w r =>
        rw [bnd_some_cons2]
        split_ifs with h1 h2
        · omega
        · obtain ⟨rfl, _, rfl⟩ := h1
          exact absurd rfl h2
        · omega
        · omega
    have hbt := bnd_nonneg a b p prev (x :: y :: rest)
    rw [hE]
    rw [pairsOf_cons2, cntP_cons]
    push_cast
    omega
  | case3 l pv hshape =>
    intro h p
    have hE : mergeEvents a b t pv l = [] := by
      cases l with
      | nil => rfl
      | cons x rest =>
        cases rest with
        | nil => rfl
        | cons y r => exact absurd rfl (fun hc => hshape x y r hc)
    rw [hE, decCount_nil]
    have hbt := bnd_nonneg a b p pv l
    have h0 : (0 : Int) ≤ (cntP p (pairsOf l) : Int) := Int.ofNat_nonneg _
    push_cast
    omega

theorem mergeList_head2 (a b t y : String) (rest : List String) :
    ∃ m, mergeList a b t (y :: rest) = y :: m ∨ mergeList a b t (y :: rest) = t :: m := by
  cases rest with
  | nil => exact ⟨[], Or.inl rfl⟩
  | cons w r =>
    by_cases hc : y = a ∧ w = b
    · refine ⟨mergeList a b t r, Or.inr ?_⟩
      simp [mergeList, hc.1, hc.2]
    · refine ⟨mergeList a b t (w :: r), Or.inl ?_⟩
      have hb : (decide (y = a) && decide (w = b)) = false := by
        rcases Decidable.em (y = a) with h1 | h1
        · rcases Decidable.em (w = b) with h2 | h2
          · exact absurd ⟨h1, h2⟩ hc
          · simp [h2]
        · simp [h1]
      simp [mergeList, hb]

theorem mergeList_no_pair (a b t : String) (hta : t ≠ a) (htb : t ≠ b)
    (l : List String) : cntP (a, b) (pairsOf (mergeList a b t l)) = 0 := by
  induction l using mergeList.induct a b t with
  | case1 x y rest hm ih =>
    simp only [Bool.and_eq_true, decide_eq_true_eq] at hm
    obtain ⟨rfl, rfl⟩ := hm
    have hL : mergeList x y t (x :: y :: rest) = t :: mergeList x y t rest := by
      simp [mergeList]
    rw [hL]
    cases rest with
    | nil => simp [mergeList, pairsOf_one, cntP_nil]
    | cons z rest' =>
      obtain ⟨m, hm2⟩ := mergeList_head2 x y t z rest'
      rcases hm2 with h2 | h2 <;> rw [h2] at ih ⊢ <;>
        rw [pairsOf_cons2, cntP_cons, if_neg (fun he => hta (congrArg Prod.fst he))] <;>
        omega
  | case2 x y rest hm ih =>
    have hL : mergeList a b t (x :: y :: rest) = x :: mergeList a b t (y :: rest) := by
      simp only [mergeList, if_neg hm]
    rw [hL]
    obtain ⟨m, hm2⟩ := mergeList_head2 a b t y rest
    rcases hm2 with h2 | h2 <;> rw [h2] at ih ⊢
    · have hne : ¬((x, y) = (a, b)) := by
        intro he
        apply hm
        simp [Prod.ext_iff] at he
        simp [he.1, he.2]
      rw [pairsOf_cons2, cntP_cons, if_neg hne]
      omega
    · rw [pairsOf_cons2, cntP_cons, if_neg (fun he => htb (congrArg Prod.snd he))]
      omega
  | case3 l hshape =>
    have hL : mergeList a b t l = l := by
      cases l with
      | nil => rfl
      | cons x rest =>
        cases rest with
        | nil => rfl
        | cons y r => exact absurd rfl (fun hc => hshape x y r hc)
    rw [hL]
    cases l with
    | nil => rfl
    | cons x rest =>
      cases rest with
      | nil => rfl
      | cons y r => exact absurd rfl (fun hc => hshape x y r hc)

theorem cnt_pos_of_hasABAB (a b : String) (l : List String)
    (h : hasABAB a b l = true) : 0 < cntP (a, b) (pairsOf l) := by
  induction l using hasABAB.induct a b with
  | case1 x y z u rest ih =>
    unfold hasABAB at h
    rcases Bool.or_eq_true_iff.mp h with h1 | h1
    · simp only [Bool.and_eq_true, decide_eq_true_eq] at h1
      obtain ⟨⟨⟨rfl, rfl⟩, _⟩, _⟩ := h1
      rw [pairsOf_cons2, cntP_cons, if_pos rfl]
      omega
    · have := ih h1
      rw [pairsOf_cons2, cntP_cons]
      omega
  | case2 l hshape =>
    exfalso
    have hL : hasABAB a b l = false := by
      cases l with
      | nil => rfl
      | cons x r1 =>
        cases r1 with
        | nil => rfl
        | cons y r2 =>
          cases r2 with
          | nil => rfl
          | cons z r3 =>
            cases r3 with
            | nil => rfl
            | cons u r4 => exact absurd rfl (fun hc => hshape x y z u r4 hc)
    rw [hL] at h
    cases h

theorem hasABAB_false_of_cnt (a b : String) (l : List String)
    (h : cntP (a, b) (pairsOf l) = 0) : hasABAB a b l = false := by
  cases hh : hasABAB a b l
  · rfl
  · have := cnt_pos_of_hasABAB a b l hh
    omega

theorem alFind_isSome_of_mem {β : Type} (m : List (String × β)) (k : String)
    (h : k ∈ m.map Prod.fst) : ∃ v, alFind m k = some v := by
  induction m with
  | nil => simp at h
  | cons e rest ih =>
    obtain ⟨k', v'⟩ := e
    by_cases he : k' = k
    · exact ⟨v', by simp [alFind, he]⟩
    · have h2 : k ∈ rest.map Prod.fst := by
        simp only [List.map_cons, List.mem_cons] at h
        rcases h with h | h
        · exact absurd h.symm he
        · exact h
      obtain ⟨v, hv⟩ := ih h2
      exact ⟨v, by simp [alFind, he, hv]⟩

theorem totalPairs_congr (counts : List (String × Int))
    (S S2 : List (String × List String)) (p : SPair)
    (h : ∀ e ∈ counts, alFind S2 e.1 = alFind S e.1) :
    totalPairs counts S2 p = totalPairs counts S p := by
  unfold totalPairs
  congr 1
  apply List.map_congr_left
  intro e he
  rw [h e he]

theorem totalPairs_alSet (counts : List (String × Int))
    (S : List (String × List String)) (p : SPair) (w : String) (f : Int)
    (newl : List String) (hnd : (counts.map Prod.fst).Nodup)
    (hcf : alFind counts w = some f) :
    totalPairs counts (alSet S w newl) p =
      totalPairs counts S p +
        f * ((cntP p (pairsOf newl) : Int) -
          (cntP p (pairsOf ((alFind S w).getD [])) : Int)) := by
  induction counts with
  | nil => cases hcf
  | cons e rest ih =>
    obtain ⟨k, n⟩ := e
    rw [totalPairs_cons, totalPairs_cons]
    have hndc : ((k : String) :: rest.map Prod.fst).Nodup := hnd
    have hnd2 := List.nodup_cons.mp hndc
    by_cases hk : k = w
    · subst hk
      have hf : n = f := by simpa [alFind] using hcf
      subst hf
      have hrest : totalPairs rest (alSet S k newl) p = totalPairs rest S p := by
        apply totalPairs_congr
        intro e' he'
        have hne : ¬(k = e'.1) := by
          intro heq
          exact hnd2.1 (by rw [heq]; exact List.mem_map_of_mem Prod.fst he')
        rw [alFind_alSet, if_neg hne]
      rw [hrest, alFind_alSet, if_pos rfl]
      simp only [Option.getD_some]
      ring
    · have hcf2 : alFind rest w = some f := by
        simpa [alFind, hk] using hcf
      rw [ih hnd2.2 hcf2, alFind_alSet, if_neg (fun he => hk he.symm)]
      ring

theorem totalPairs_zero (counts : List (String × Int))
    (S : List (String × List String)) (p : SPair)
    (h : ∀ e ∈ counts, cntP p (pairsOf ((alFind S e.1).getD [])) = 0) :
    totalPairs counts S p = 0 := by
  unfold totalPairs
  apply List.sum_eq_zero
  intro x hx
  rcases List.mem_map.mp hx with ⟨e, he, rfl⟩
  rw [h e he]
  ring

theorem append_ne_left {a b : String} (hb : b ≠ "") : (a ++ b) ≠ a := by
  intro he
  apply hb
  have hd := congrArg String.data he
  rw [String.data_append] at hd
  have hlen := congrArg List.length hd
  rw [List.length_append] at hlen
  have hz : b.data.length = 0 := by omega
  exact strExt (by rw [List.eq_nil_of_length_eq_zero hz])

theorem append_ne_right {a b : String} (ha : a ≠ "") : (a ++ b) ≠ b := by
  intro he
  apply ha
  have hd := congrArg String.data he
  rw [String.data_append] at hd
  have hlen := congrArg List.length hd
  rw [List.length_append] at hlen
  have hz : a.data.length = 0 := by omega
  exact strExt (by rw [List.eq_nil_of_length_eq_zero hz])

theorem processWord_inv_step (counts : List (String × Int)) (a b : String)
    (hpos : ∀ e ∈ counts, 1 ≤ e.2) (hnd : (counts.map Prod.fst).Nodup)
    (ha : a ≠ "") (hb : b ≠ "")
    (S : List (String × List String)) (P : List (SPair × Int))
    (I : List (SPair × List String)) (w : String)
    (hwmem : w ∈ counts.map Prod.fst)
    (hInv : ∀ p, p ≠ (a, b) → plFind P p = toOptZ (totalPairs counts S p))
    (hAB : ∀ u, hasABAB a b ((alFind S u).getD []) = false) :
    ∀ r, r = processWord counts (a, b) (a ++ b) (S, P, I) w →
      (∀ p, p ≠ (a, b) → plFind r.2.1 p = toOptZ (totalPairs counts r.1 p)) ∧
      (∀ u, hasABAB a b ((alFind r.1 u).getD []) = false) ∧
      (cntP (a, b) (pairsOf ((alFind r.1 w).getD [])) = 0) ∧
      (∀ u, u ≠ w → alFind r.1 u = alFind S u) := by
  intro r hr
  by_cases hlen : ((alFind S w).getD []).length < 2
  · have hre : r = (S, P, I) := by
      rw [hr]; simp [processWord, hlen]
    subst hre
    refine ⟨hInv, hAB, ?_, fun u _ => rfl⟩
    rcases hl : (alFind S w).getD [] with _ | ⟨x, _ | ⟨y, rest⟩⟩
    · rfl
    · rfl
    · rw [hl] at hlen; simp at hlen; omega
  · obtain ⟨f, hcf⟩ := alFind_isSome_of_mem counts w hwmem
    have hf1 : (1 : Int) ≤ f := hpos (w, f) (alFind_some_mem hcf)
    have hta : (a ++ b) ≠ a := append_ne_left hb
    have htb : (a ++ b) ≠ b := append_ne_right ha
    have hre : r = (alSet S w (mergeWalk a b (a ++ b) w f none ((alFind S w).getD []) P I).1,
        (mergeWalk a b (a ++ b) w f none ((alFind S w).getD []) P I).2.1,
        (mergeWalk a b (a ++ b) w f none ((alFind S w).getD []) P I).2.2) := by
      rw [hr]; simp [processWord, hlen, hcf]
    rw [mergeWalk_fst, mergeWalk_pstats] at hre
    have hsw : alFind r.1 w =
        some (mergeList a b (a ++ b) ((alFind S w).getD [])) := by
      rw [hre, alFind_alSet, if_pos rfl]
    have hcnt0 : cntP (a, b) (pairsOf ((alFind r.1 w).getD [])) = 0 := by
      rw [hsw, Option.getD_some]
      exact mergeList_no_pair a b (a ++ b) hta htb _
    have hother : ∀ u, u ≠ w → alFind r.1 u = alFind S u := by
      intro u hu
      rw [hre, alFind_alSet, if_neg (fun he => hu he.symm)]
    refine ⟨?_, ?_, hcnt0, hother⟩
    · intro p hp
      have hABw : hasABAB a b (optCons none ((alFind S w).getD [])) = false := by
        simpa [optCons] using hAB w
      have hchar := applyEvents_char (a, b) f hf1
        (mergeEvents a b (a ++ b) none ((alFind S w).getD [])) P
        (fun q => totalPairs counts S q) hInv
        (fun q _ => totalPairs_nonneg counts S q hpos)
        ?back p hp
      case back =>
        intro q hq
        have hdec := mergeEvents_decCount a b (a ++ b) none ((alFind S w).getD []) hABw q
        rw [bnd_none] at hdec
        have hmul : f * (decCount q (mergeEvents a b (a ++ b) none ((alFind S w).getD [])) : Int) ≤
            f * (cntP q (pairsOf ((alFind S w).getD [])) : Int) := by
          apply mul_le_mul_of_nonneg_left _ (by omega)
          omega
        calc f * (decCount q (mergeEvents a b (a ++ b) none ((alFind S w).getD [])) : Int) ≤
              f * (cntP q (pairsOf ((alFind S w).getD [])) : Int) := hmul
          _ ≤ totalPairs counts S q :=
              totalPairs_term_le counts S q hpos w f (alFind_some_mem hcf)
      have hdelta := mergeEvents_delta a b (a ++ b) none ((alFind S w).getD []) hABw p hp
      simp only [optCons] at hdelta
      have hsplit : r.1 = alSet S w (mergeList a b (a ++ b) ((alFind S w).getD [])) := by
        rw [hre]
      have hstats : r.2.1 =
          applyEvents f P (mergeEvents a b (a ++ b) none ((alFind S w).getD [])) := by
        rw [hre]
      rw [hstats, hchar, hsplit,
        totalPairs_alSet counts S p w f _ hnd hcf, hdelta]
    · intro u
      by_cases hu : u = w
      · subst hu
        exact hasABAB_false_of_cnt a b _ hcnt0
      · rw [hother u hu]
        exact hAB u

theorem foldl_processWord_inv (counts : List (String × Int)) (a b : String)
    (hpos : ∀ e ∈ counts, 1 ≤ e.2) (hnd : (counts.map Prod.fst).Nodup)
    (ha : a ≠ "") (hb : b ≠ "") :
    ∀ (ws : List String) (S : List (String × List String)) (P : List (SPair × Int))
      (I : List (SPair × List String)),
      (∀ u ∈ ws, u ∈ counts.map Prod.fst) →
      (∀ p, p ≠ (a, b) → plFind P p = toOptZ (totalPairs counts S p)) →
      (∀ u, hasABAB a b ((alFind S u).getD []) = false) →
      (∀ u, u ∈ counts.map Prod.fst →
        0 < cntP (a, b) (pairsOf ((alFind S u).getD [])) → u ∈ ws) →
      ∀ r, r = ws.foldl (processWord counts (a, b) (a ++ b)) (S, P, I) →
        (∀ p, p ≠ (a, b) → plFind r.2.1 p = toOptZ (totalPairs counts r.1 p)) ∧
        (∀ u, u ∈ counts.map Prod.fst →
          cntP (a, b) (pairsOf ((alFind r.1 u).getD [])) = 0) := by
  intro ws
  induction ws with
  | nil =>
    intro S P I hmem hInv hAB hQ r hr
    rw [List.foldl_nil] at hr
    subst hr
    refine ⟨hInv, ?_⟩
    intro u hu
    by_contra hc
    have hc2 : cntP (a, b) (pairsOf ((alFind S u).getD [])) ≠ 0 := hc
    have := hQ u hu (by omega)
    simp at this
  | cons w ws ih =>
    intro S P I hmem hInv hAB hQ r hr
    obtain ⟨h1, h2, h3, h4⟩ := processWord_inv_step counts a b hpos hnd ha hb S P I w
      (hmem w (List.mem_cons_self w ws)) hInv hAB _ rfl
    have hr2 : r = ws.foldl (processWord counts (a, b) (a ++ b))
        ((processWord counts (a, b) (a ++ b) (S, P, I) w).1,
         (processWord counts (a, b) (a ++ b) (S, P, I) w).2.1,
         (processWord counts (a, b) (a ++ b) (S, P, I) w).2.2) := by
      rw [hr, List.foldl_cons]
    refine ih _ _ _ (fun u hu => hmem u (List.mem_cons_of_mem _ hu)) h1 h2 ?_ r hr2
    intro u hu hcnt
    by_cases huw : u = w
    · subst huw
      rw [h3] at hcnt
      omega
    · rw [h4 u huw] at hcnt
      rcases List.mem_cons.mp (hQ u hu hcnt) with he | hm
      · exact absurd he huw
      · exact hm

/-- C1 (amended): after a complete merge step of the incremental learner, the
maintained pair-stats map equals the fresh pair-frequency recompute over the
updated splits, provided the invariant held before the step, word frequencies
are positive, word keys are unique, the selected pair has nonempty components,
no stored split contains the contiguous pattern `a b a b` of the selected pair
`(a, b)`, the inverted-index entry lists only known words, and every word whose
split contains the selected pair is listed in the entry. -/
theorem claim_c1_merge_step_invariant (st : TrainSt) (be : SPair × Int)
    (hsel : selectBest st.pstats = some be)
    (hpos : ∀ e ∈ st.counts, 1 ≤ e.2)
    (hnd : (st.counts.map Prod.fst).Nodup)
    (ha : be.1.1 ≠ "") (hb : be.1.2 ≠ "")
    (hInv : st.pstats = get_pair_stats st.counts st.splits)
    (hAB : ∀ e ∈ st.splits, hasABAB be.1.1 be.1.2 e.2 = false)
    (hwsK : ∀ u, u ∈ (plFind st.iindex be.1).getD [] → u ∈ st.counts.map Prod.fst)
    (hcont : ∀ u, u ∈ st.counts.map Prod.fst →
      0 < cntP be.1 (pairsOf ((alFind st.splits u).getD [])) →
      u ∈ (plFind st.iindex be.1).getD []) :
    ∀ p, plFind (trainStep st).pstats p =
      toOptZ (totalPairs (trainStep st).counts (trainStep st).splits p) := by
  obtain ⟨⟨a, b⟩, v⟩ := be
  simp only at ha hb hAB hwsK hcont
  have hInvP : ∀ q, plFind st.pstats q = toOptZ (totalPairs st.counts st.splits q) := by
    intro q
    rw [hInv]
    exact get_pair_stats_char st.counts st.splits hpos q
  have hABP : ∀ w, hasABAB a b ((alFind st.splits w).getD []) = false := by
    intro w
    cases hfw : alFind st.splits w with
    | none => rfl
    | some l =>
      rw [Option.getD_some]
      exact hAB (w, l) (alFind_some_mem hfw)
  intro p
  have htr : trainStep st = mergeStep (a, b) st := by
    unfold trainStep
    rw [hsel]
  rw [htr]
  simp only [mergeStep]
  cases hidx : plFind st.iindex (a, b) with
  | none =>
    rw [hidx] at hwsK hcont
    simp only [Option.getD_none] at hwsK hcont
    simp only
    rw [plFind_plErase]
    by_cases hp : (a, b) = p
    · rw [if_pos hp, ← hp]
      have hz : totalPairs st.counts st.splits (a, b) = 0 := by
        apply totalPairs_zero
        intro e he
        by_contra hc
        have hpos' : 0 < cntP (a, b) (pairsOf ((alFind st.splits e.1).getD [])) := by
          omega
        exact (List.not_mem_nil e.1) (hcont e.1 (List.mem_map_of_mem Prod.fst he) hpos')
      rw [hz]
      rfl
    · rw [if_neg hp]
      exact hInvP p
  | some ws =>
    rw [hidx] at hwsK hcont
    simp only [Option.getD_some] at hwsK hcont
    simp only
    obtain ⟨H1, H2⟩ := foldl_processWord_inv st.counts a b hpos hnd ha hb ws
      st.splits st.pstats st.iindex hwsK (fun q _ => hInvP q) hABP hcont _ rfl
    rw [plFind_plErase]
    by_cases hp : (a, b) = p
    · rw [if_pos hp, ← hp]
      have hz : totalPairs st.counts
          (ws.foldl (processWord st.counts (a, b) (a ++ b))
            (st.splits, st.pstats, st.iindex)).1 (a, b) = 0 := by
        apply totalPairs_zero
        intro e he
        exact H2 e.1 (List.mem_map_of_mem Prod.fst he)
      rw [hz]
      rfl
    · rw [if_neg hp]
      exact H1 p (fun he => hp he.symm)

/-- C1 counterexample: training on the single word `abab` (frequency 1), the
setup state satisfies the invariant, the first merge step merges `("a", "b")`,
and afterwards the maintained map has no entry for `("ab", "ab")` although the
fresh recompute over the new splits gives it frequency 1: the two adjacent
occurrences make the incremental update double-decrement `("b", "a")` and
credit `("ab", "a")` and `("b", "ab")` instead of `("ab", "ab")`. -/
theorem claim_c1_counterexample :
    (setupSt [("abab", 1)]).pstats =
      get_pair_stats (setupSt [("abab", 1)]).counts (setupSt [("abab", 1)]).splits ∧
    plFind (trainStep (setupSt [("abab", 1)])).pstats ("ab", "ab") = none ∧
    totalPairs (trainStep (setupSt [("abab", 1)])).counts
      (trainStep (setupSt [("abab", 1)])).splits ("ab", "ab") = 1 := by
  decide

/-- C1 witness: the amended invariant theorem applied to the concrete setup
state for the single word `ab`, whose splits contain no adjacent repetition of
the selected pair; every hypothesis is discharged by evaluation. -/
theorem claim_c1_merge_step_invariant_witness :
    plFind (trainStep (setupSt [("ab", 1)])).pstats ("ab", "</w>") =
      toOptZ (totalPairs (trainStep (setupSt [("ab", 1)])).counts
        (trainStep (setupSt [("ab", 1)])).splits ("ab", "</w>")) :=
  claim_c1_merge_step_invariant (setupSt [("ab", 1)]) (("a", "b"), 1)
    (by decide) (by decide) (by decide) (by decide) (by decide) (by decide)
    (by decide) (by decide) (by decide) ("ab", "</w>")
